import Mathlib

/-!
Verification of the schema/dependency reasoning core of a MongoDB-to-PostgreSQL
migration package.  The TypeScript sources are shallowly embedded: pure string
utilities become functions on `List Char`/`String`, JavaScript runtime values
become the inductive `JSValue`, JS `Map`/`Set` objects become insertion-ordered
association lists, and the orchestrator's effectful run becomes a function of an
explicit trace of collaborator outcomes.  Every definition follows the source
file it names; theorems about the claims come after all definitions.
-/

/-! ### Characters and strings

`sanitizeIdentifier` (src/utils/index.ts) is
`name.replace(/[^a-zA-Z0-9_]/g, '_').replace(/^[0-9]/, '_$&').toLowerCase()`.
The character classes of the two regexes are ASCII, exactly `Char.isAlphanum`
and `Char.isDigit`; after the first replacement only ASCII characters remain,
so JavaScript `toLowerCase` coincides with `Char.toLower` on everything the
final step sees. -/

def sanitizeChar (c : Char) : Char :=
  if c.isAlphanum ∨ c = '_' then c else '_'

def prefixUnderscore : List Char → List Char
  | [] => []
  | c :: cs => if c.isDigit then '_' :: c :: cs else c :: cs

def sanitizeList (l : List Char) : List Char :=
  (prefixUnderscore (l.map sanitizeChar)).map Char.toLower

def sanitizeIdentifier (name : String) : String :=
  ⟨sanitizeList name.data⟩

/-- JavaScript `String.prototype.toLowerCase`, restricted to the simple ASCII
mapping (all strings it is applied to in the embedded code are ASCII). -/
def strToLower (s : String) : String :=
  ⟨s.data.map Char.toLower⟩

/-- JavaScript `String.prototype.includes`: `sub` occurs contiguously in `s`. -/
def strIncludes (s sub : String) : Bool :=
  s.data.tails.any (fun t => sub.data.isPrefixOf t)

/-! ### MongoDB field types and JavaScript values (src/types, src/utils/index.ts) -/

inductive MongoFieldType where
  | string
  | number
  | boolean
  | date
  | objectId
  | object
  | array
  | null
  | binary
  deriving DecidableEq, Repr

/-- A JavaScript runtime value as the analyzed code can observe it.  Objects
and binary payloads (`Buffer`/BSON `Binary`) carry the string their `toString`
method would produce; `vother` stands for the remaining primitives (symbols,
functions) whose `typeof` is none of the tags the code tests. -/
inductive JSValue where
  | vnull
  | vundefined
  | vstring (s : String)
  | vnumber (n : Int)
  | vbool (b : Bool)
  | vdate (ms : Int)
  | varray (elems : List JSValue)
  | vobject (fieldList : List (String × JSValue)) (strRep : String)
  | vbinary (bytes : List Nat) (strRep : String)
  | vother (strRep : String)
  deriving Repr

def jsTypeof : JSValue → String
  | .vnull => "object"
  | .vundefined => "undefined"
  | .vstring _ => "string"
  | .vnumber _ => "number"
  | .vbool _ => "boolean"
  | .vdate _ => "object"
  | .varray _ => "object"
  | .vobject _ _ => "object"
  | .vbinary _ _ => "object"
  | .vother _ => "symbol"

def isNullish : JSValue → Bool
  | .vnull => true
  | .vundefined => true
  | _ => false

def isDateV : JSValue → Bool
  | .vdate _ => true
  | _ => false

def isArrayV : JSValue → Bool
  | .varray _ => true
  | _ => false

/-- `value.toString()`.  Every branch that the embedded code actually reaches
with this is either a string or an object/binary value carrying its `strRep`. -/
def jsToString : JSValue → String
  | .vnull => "null"
  | .vundefined => "undefined"
  | .vstring s => s
  | .vnumber n => toString n
  | .vbool b => toString b
  | .vdate _ => ""
  | .varray _ => ""
  | .vobject _ r => r
  | .vbinary _ r => r
  | .vother r => r

def isHexDigit (c : Char) : Bool :=
  c.isDigit || ('a' ≤ c && c ≤ 'f') || ('A' ≤ c && c ≤ 'F')

/-- The test `/^[a-fA-F0-9]{24}$/.test(str)`. -/
def isHex24 (s : String) : Bool :=
  s.data.length == 24 && s.data.all isHexDigit

/-- `inferTypeFromValue` (src/utils/index.ts, lines 83-120), branch for branch:
null/undefined, then the `typeof` chain, `instanceof Date`, `Array.isArray`,
then the object branch with its 24-hex-digit `toString` test, and the final
`string` fallback.  (`'toString' in value` is true of every JS object, so the
inner conditional is only the pattern test.) -/
def inferTypeFromValue (v : JSValue) : MongoFieldType :=
  if isNullish v then .null
  else if jsTypeof v = "string" then .string
  else if jsTypeof v = "number" then .number
  else if jsTypeof v = "boolean" then .boolean
  else if isDateV v then .date
  else if isArrayV v then .array
  else if jsTypeof v = "object" then
    (if isHex24 (jsToString v) then .objectId else .object)
  else .string

/-! ### Insertion-ordered association lists

JavaScript `Map` keyed by strings: `get` finds the first entry, `set` updates
the first matching entry in place or appends a fresh one at the end, so
iteration order is key insertion order. -/

def mapGet {α : Type} : List (String × α) → String → Option α
  | [], _ => none
  | p :: ps, k => if p.1 = k then some p.2 else mapGet ps k

def mapSet {α : Type} : List (String × α) → String → α → List (String × α)
  | [], k, v => [(k, v)]
  | p :: ps, k, v => if p.1 = k then (k, v) :: ps else p :: mapSet ps k v

/-- Mutating one field of the object stored under a key (JS objects are held by
reference, so `field.type = t` updates the map's entry in place). -/
def updateEntry {α : Type} (f : α → α) : List (String × α) → String → List (String × α)
  | [], _ => []
  | p :: ps, k => if p.1 = k then (k, f p.2) :: ps else p :: updateEntry f ps k

def keysOf {α : Type} (m : List (String × α)) : List String :=
  m.map Prod.fst

/-! ### Schema analysis (src/core/mongo-analyzer.ts)

`analyzeDocument` walks `Object.entries(doc)`; `Object.entries` of an array or
of a `Buffer` yields index keys `"0"`, `"1"`, … in order, which the recursive
calls can reach through nested objects and array first elements. -/

structure FieldSchema where
  name : String
  type : MongoFieldType
  isRequired : Bool
  isArray : Bool
  deriving DecidableEq, Repr

abbrev FieldMap := List (String × FieldSchema)

mutual
def jsSize : JSValue → Nat
  | .vobject fs _ => 1 + entsSize fs
  | .varray xs => 1 + arrSize xs
  | .vbinary bs _ => 1 + bs.length
  | _ => 1

def entsSize : List (String × JSValue) → Nat
  | [] => 0
  | (_, v) :: r => jsSize v + entsSize r

def arrSize : List JSValue → Nat
  | [] => 0
  | v :: r => jsSize v + arrSize r
end

def enumEntries (i : Nat) : List JSValue → List (String × JSValue)
  | [] => []
  | v :: r => (toString i, v) :: enumEntries (i + 1) r

def enumBytes (i : Nat) : List Nat → List (String × JSValue)
  | [] => []
  | b :: r => (toString i, JSValue.vnumber b) :: enumBytes (i + 1) r

/-- `Object.entries(value)` for the values the analyzer recurses into. -/
def jsEntries : JSValue → List (String × JSValue)
  | .vobject fs _ => fs
  | .varray xs => enumEntries 0 xs
  | .vbinary bs _ => enumBytes 0 bs
  | _ => []

/-- `value && typeof value === 'object' && !Array.isArray(value) &&
!(value instanceof Date)`: the guard for recursing into a nested object. -/
def isNestedObject : JSValue → Bool
  | .vobject _ _ => true
  | .vbinary _ _ => true
  | _ => false

/-- `firstItem && typeof firstItem === 'object' && !(firstItem instanceof
Date)`: the guard for recursing into an array's first element (arrays pass). -/
def isObjectTypeof : JSValue → Bool
  | .vobject _ _ => true
  | .vbinary _ _ => true
  | .varray _ => true
  | _ => false

/-- `if (field.type === 'null') field.type = currentType` — run only for
non-null observed values. -/
def promoteType (v : JSValue) (fd : FieldSchema) : FieldSchema :=
  if fd.type = .null then { fd with type := inferTypeFromValue v } else fd

/-- `field.isArray = true`. -/
def markArray (fd : FieldSchema) : FieldSchema :=
  { fd with isArray := true }

/-- The per-entry map update (lines 92-109): create the descriptor on first
sight, then promote a `null` type when the observed value is non-null. -/
def observeField (v : JSValue) (fieldName : String) (fieldMap : FieldMap) : FieldMap :=
  let m1 := if (mapGet fieldMap fieldName).isSome then fieldMap
    else fieldMap ++ [(fieldName, ⟨fieldName, inferTypeFromValue v, false, isArrayV v⟩)]
  if isNullish v then m1 else updateEntry (promoteType v) m1 fieldName

/-- `MongoAnalyzer.analyzeDocument` (src/core/mongo-analyzer.ts, lines 88-125):
per entry, `observeField`, recursion into nested objects, then the array
handling (`field.isArray = true` and recursion into a non-empty array's first
element).  The recursion descends the finite document tree; `fuel` only bounds
it and `entsSize ents` is always enough (`analyzeDocumentF_fuel_irrelevant`),
which is what the wrapper `analyzeDocument` passes. -/
def analyzeDocumentF : Nat → List (String × JSValue) → FieldMap → String → FieldMap
  | _, [], fieldMap, _ => fieldMap
  | 0, _ :: _, fieldMap, _ => fieldMap
  | fuel + 1, (key, v) :: rest, fieldMap, prefixStr =>
    let fieldName := if prefixStr = "" then key else prefixStr ++ "." ++ key
    let m2 := observeField v fieldName fieldMap
    let m3 := if isNestedObject v then analyzeDocumentF fuel (jsEntries v) m2 fieldName else m2
    let m4 := match v with
      | .varray (x :: _) =>
        let ma := updateEntry markArray m3 fieldName
        if isObjectTypeof x then analyzeDocumentF fuel (jsEntries x) ma fieldName else ma
      | _ => m3
    analyzeDocumentF fuel rest m4 prefixStr

def analyzeDocument (ents : List (String × JSValue)) (fieldMap : FieldMap)
    (prefixStr : String) : FieldMap :=
  analyzeDocumentF (entsSize ents) ents fieldMap prefixStr

/-- The per-collection sampling loop of `analyzeCollection`: fold the sampled
documents into one field map. -/
def analyzeDocuments (docs : List (List (String × JSValue))) (m : FieldMap) : FieldMap :=
  docs.foldl (fun fm doc => analyzeDocument doc fm "") m

/-! ### Column mapping fallback (src/core/migration-engine.ts) -/

structure ColumnSchema where
  name : String
  type : String
  nullable : Bool
  primaryKey : Bool
  unique : Bool
  deriving DecidableEq, Repr

structure PostgresTableSchema where
  name : String
  columns : List ColumnSchema
  deriving DecidableEq, Repr

structure CollectionSchema where
  name : String
  fields : List FieldSchema
  deriving DecidableEq, Repr

structure ColumnMapping where
  mongoField : String
  postgresColumn : String
  deriving DecidableEq, Repr

/-- `field.name.replace(/\./g, '_')`. -/
def replaceDots (s : String) : String :=
  ⟨s.data.map (fun c => if c = '.' then '_' else c)⟩

/-- The loop body of `createBasicColumnMappings`: skip `_id`, try the exact
sanitized-name match against the destination column-name set, else the first
substring match in either direction; fields matching nothing are dropped. -/
def basicFieldStep (pgSchema : PostgresTableSchema) (pgColumns : List String)
    (mappings : List ColumnMapping) (field : FieldSchema) : List ColumnMapping :=
  if field.name = "_id" then mappings
  else
    let sanitizedFieldName := strToLower (replaceDots field.name)
    if pgColumns.contains sanitizedFieldName then
      mappings ++ [⟨field.name, sanitizedFieldName⟩]
    else
      match pgSchema.columns.find? (fun col =>
          strIncludes (strToLower col.name) sanitizedFieldName ||
          strIncludes sanitizedFieldName (strToLower col.name)) with
      | some matchingColumn => mappings ++ [⟨field.name, matchingColumn.name⟩]
      | none => mappings

/-- `MigrationEngine.createBasicColumnMappings` (src/core/migration-engine.ts,
lines 320-367): map `_id` to the first unique/primary column whose lowercased
name contains `"id"`, then fold `basicFieldStep` over the source fields. -/
def createBasicColumnMappings (mongoSchema : CollectionSchema)
    (pgSchema : PostgresTableSchema) : List ColumnMapping :=
  let pgColumns := pgSchema.columns.map (fun col => col.name)
  let idMappings : List ColumnMapping :=
    match pgSchema.columns.find? (fun col =>
        strIncludes (strToLower col.name) "id" && (col.unique || col.primaryKey)) with
    | some idColumn => [⟨"_id", idColumn.name⟩]
    | none => []
  mongoSchema.fields.foldl (basicFieldStep pgSchema pgColumns) idMappings

/-! ### The orchestrator's run (src/core/migration-engine.ts, `migrate`)

`migrate` builds one `MigrationResult` accumulator; every per-collection
failure is caught inside the loop and appended to `errors`, every migrated
collection appends its name and adds its document count.  The run is embedded
as a function of its trace: either the `try` body ran to completion (and then
`success = (errors.length === 0)` and the elapsed time are written), or an
exception escaped to the `catch` after a prefix of collection outcomes (its
message is pushed onto `errors`; `success` keeps its initial `false`, and
`migrationTime` keeps its initial `0`). -/

inductive CollOutcome where
  | migrated (name : String) (docCount : Nat)
  | failed (errorMsg : String)
  deriving DecidableEq, Repr

structure MigrationResult where
  success : Bool
  migratedCollections : List String
  errors : List String
  totalDocuments : Nat
  migrationTime : Nat
  deriving DecidableEq, Repr

inductive RunTrace where
  | completed (outcomes : List CollOutcome) (elapsed : Nat)
  | fatal (outcomes : List CollOutcome) (errorMsg : String)
  deriving DecidableEq, Repr

def applyOutcome (r : MigrationResult) : CollOutcome → MigrationResult
  | .migrated n c =>
    { r with migratedCollections := r.migratedCollections ++ [n],
             totalDocuments := r.totalDocuments + c }
  | .failed e => { r with errors := r.errors ++ [e] }

def migrate (trace : RunTrace) : MigrationResult :=
  let r0 : MigrationResult := ⟨false, [], [], 0, 0⟩
  match trace with
  | .completed outs elapsed =>
    let r := outs.foldl applyOutcome r0
    { r with success := decide (r.errors.length = 0), migrationTime := elapsed }
  | .fatal outs e =>
    let r := outs.foldl applyOutcome r0
    { r with errors := r.errors ++ [e] }

def traceOutcomes : RunTrace → List CollOutcome
  | .completed outs _ => outs
  | .fatal outs _ => outs

def outcomeNames (outs : List CollOutcome) : List String :=
  outs.filterMap (fun o => match o with | .migrated n _ => some n | .failed _ => none)

def outcomeDocs (outs : List CollOutcome) : Nat :=
  (outs.map (fun o => match o with | .migrated _ c => c | .failed _ => 0)).sum

def outcomeErrors (outs : List CollOutcome) : List String :=
  outs.filterMap (fun o => match o with | .migrated _ _ => none | .failed e => some e)

/-! ### Pre-existing-table migration (src/core/migration-engine.ts lines
266-315, and `PostgresManager.insertDocumentsWithMapping`) -/

/-- `PostgresManager.getNestedValue`: split the path on `.` and walk own
properties, returning `null` as soon as a step is not an object or lacks the
key.  (`key in current` is modelled by own-entry lookup; sampled MongoDB
documents are plain data objects.) -/
def propLookup (cur : JSValue) (k : String) : JSValue :=
  if isNullish cur then .vnull
  else if jsTypeof cur = "object" then
    (match mapGet (jsEntries cur) k with
     | some w => w
     | none => .vnull)
  else .vnull

def getNestedValue (obj : JSValue) (path : String) : JSValue :=
  if isNullish obj then .vnull
  else if jsTypeof obj = "object" then (path.splitOn ".").foldl propLookup obj
  else .vnull

/-- A value bound to an SQL insert parameter: either the scalar itself or the
JSON text of a composite value (`JSON.stringify(value)`; the serialized text
itself is incidental to every claim, so the cell records which value was
serialized). -/
inductive CellValue where
  | plain (v : JSValue)
  | json (v : JSValue)
  deriving Repr

/-- One mapped parameter: `_id` goes through `doc?._id?.toString() || null`
(so a missing/null `_id` and the empty string both become `null`), every other
field through `getNestedValue` plus JSON serialization of non-`Date`
composites. -/
def extractValue (doc : JSValue) (mongoField : String) : CellValue :=
  if mongoField = "_id" then
    (let idv := propLookup doc "_id"
     if isNullish idv then .plain .vnull
     else
       let s := jsToString idv
       if s = "" then .plain .vnull else .plain (.vstring s))
  else
    let value := getNestedValue doc mongoField
    if isObjectTypeof value then .json value else .plain value

/-- `PostgresManager.insertDocumentsWithMapping` (src/core/postgres-manager.ts,
lines 191-265), as the list of rows it sends to the destination: mappings are
validated against the live table's columns, and when none survives the method
returns after a warning, inserting nothing.  (The `ON CONFLICT … DO NOTHING`
clause and the live-schema fetch are destination-side collaborator behavior.) -/
def insertDocumentsWithMapping (tableSchema : PostgresTableSchema)
    (documents : List JSValue) (columnMappings : List ColumnMapping) :
    List (List (String × CellValue)) :=
  if documents.length = 0 then []
  else
    let existingColumns := tableSchema.columns.map (fun col => col.name)
    let validMappings := columnMappings.filter (fun mapping =>
      existingColumns.contains mapping.postgresColumn)
    if validMappings.length = 0 then []
    else
      documents.filterMap (fun doc =>
        let row := validMappings.map (fun mapping =>
          (mapping.postgresColumn, extractValue doc mapping.mongoField))
        if row.length = 0 then none else some row)

/-- `config.batchSize || 1000`: `undefined` and `0` are both falsy. -/
def effectiveBatchSize (batchSize : Option Nat) : Nat :=
  match batchSize with
  | some n => if n = 0 then 1000 else n
  | none => 1000

/-- The batch loop `for (let skip = 0; skip < totalDocs; skip += batchSize)`
with `getDocuments = find().skip(skip).limit(batchSize)`; `fuel` only bounds
the recursion and `docs.length + 1` is always enough (`fetchLoop_count`). -/
def fetchLoop (docs : List JSValue) (b : Nat)
    (write : List JSValue → List (List (String × CellValue))) :
    Nat → Nat → List (List (String × CellValue)) × Nat
  | _, 0 => ([], 0)
  | skip, fuel + 1 =>
    if skip < docs.length then
      (let batch := (docs.drop skip).take b
       if batch.length = 0 then ([], 0)
       else
         let rest := fetchLoop docs b write (skip + b) fuel
         (write batch ++ rest.1, batch.length + rest.2))
    else ([], 0)

/-- `MigrationEngine.migrateCollectionToExistingTable` (lines 266-315) after
the column mappings have been chosen: copy batches through
`insertDocumentsWithMapping`, then unconditionally record the collection name
and add the running `migratedCount` (the number of documents fetched). -/
def migrateCollectionToExistingTable (mongoName : String)
    (pgSchema : PostgresTableSchema) (docs : List JSValue)
    (batchSize : Option Nat) (columnMappings : List ColumnMapping)
    (result : MigrationResult) :
    MigrationResult × List (List (String × CellValue)) :=
  let b := effectiveBatchSize batchSize
  let run := fetchLoop docs b
    (fun batch => insertDocumentsWithMapping pgSchema batch columnMappings) 0 (docs.length + 1)
  ({ result with
      migratedCollections := result.migratedCollections ++ [mongoName],
      totalDocuments := result.totalDocuments + run.2 }, run.1)

/-! ### Dependency resolver (src/utils/ddl-parser.ts, `DDLParser.getInsertionOrder`)

The JS graph is `Map<string, Set<string>>` plus `Map<string, number>`: ordered
maps and an insertion-ordered set, embedded as association lists with
first-match update.  The `while (queue.length > 0)` loop always terminates —
each iteration pops one table and every enqueue it performs retires one unit
of positive in-degree — so it is written with a fuel argument set to the
measure `queue.length + degSum deg` that the loop strictly decreases;
`kahnLoop_fuel_irrelevant` shows any fuel at least the measure gives the same
(completed) run. -/

structure TableRelationship where
  tableName : String
  referencedTable : String
  columnName : String
  referencedColumn : String
  deriving DecidableEq, Repr

abbrev AdjMap := List (String × List String)
abbrev DegMap := List (String × Int)

/-- JS `Set.add`: append if absent (iteration follows insertion order). -/
def setAdd (s : List String) (x : String) : List String :=
  if x ∈ s then s else s ++ [x]

def adjOf (g : AdjMap) (t : String) : List String :=
  (mapGet g t).getD []

def degOf (d : DegMap) (t : String) : Int :=
  (mapGet d t).getD 0

def degSum (d : DegMap) : Nat :=
  (d.map (fun p => p.2.toNat)).sum

/-- The initialization loop: `graph.set(table, new Set()); inDegree.set(table, 0)`. -/
def initTables (tables : List String) : AdjMap × DegMap :=
  tables.foldl (fun gd t => (mapSet gd.1 t [], mapSet gd.2 t 0)) ([], [])

/-- One step of the edge-building loop: edges whose two endpoints are graph
keys add the dependent table to the referenced table's adjacency set and
increment the dependent table's in-degree (once per relationship, duplicates
included). -/
def addRelationship (gd : AdjMap × DegMap) (rel : TableRelationship) : AdjMap × DegMap :=
  if (mapGet gd.1 rel.tableName).isSome ∧ (mapGet gd.1 rel.referencedTable).isSome then
    (mapSet gd.1 rel.referencedTable (setAdd (adjOf gd.1 rel.referencedTable) rel.tableName),
     mapSet gd.2 rel.tableName (degOf gd.2 rel.tableName + 1))
  else gd

def buildState (tables : List String) (relationships : List TableRelationship) :
    AdjMap × DegMap :=
  relationships.foldl addRelationship (initTables tables)

/-- `inDegree.forEach((degree, table) => { if (degree === 0) queue.push(table) })`. -/
def initialQueue (d : DegMap) : List String :=
  d.foldl (fun q p => if p.2 = 0 then q ++ [p.1] else q) []

/-- Processing one dependent table of a popped table: decrement its in-degree
and enqueue it when the stored degree has just become `0`. -/
def stepNeighbor (qd : List String × DegMap) (n : String) : List String × DegMap :=
  let nd := degOf qd.2 n - 1
  let d2 := mapSet qd.2 n nd
  if nd = 0 then (qd.1 ++ [n], d2) else (qd.1, d2)

/-- The `while` loop of Kahn's algorithm: pop the queue head, emit it, fold
`stepNeighbor` over its adjacency set. -/
def kahnLoop (g : AdjMap) : Nat → List String → DegMap → List String
  | _, [], _ => []
  | 0, _ :: _, _ => []
  | fuel + 1, t :: rest, deg =>
      let qd := (adjOf g t).foldl stepNeighbor (rest, deg)
      t :: kahnLoop g fuel qd.1 qd.2

/-- `DDLParser.getInsertionOrder` (src/utils/ddl-parser.ts, lines 398-451):
build the filtered graph, seed the queue with zero-in-degree tables, run
Kahn's loop, and append the unsorted remainder in input order when a cycle
left the result short. -/
def getInsertionOrder (tables : List String)
    (relationships : List TableRelationship) : List String :=
  let gd := buildState tables relationships
  let queue := initialQueue gd.2
  let result := kahnLoop gd.1 (queue.length + degSum gd.2) queue gd.2
  if result.length ≠ tables.length then
    result ++ tables.filter (fun t => decide (t ∉ result))
  else result

/-! ### DDL relationship parser (src/utils/ddl-parser.ts, `DDLParser.parseRelationships`)

The method is regular-expression text processing.  The three patterns used —

  `FOREIGN\s+KEY\s*\(\s*([^)]+)\s*\)\s+REFERENCES\s+([^\s(]+)\s*\(\s*([^)]+)\s*\)`
  `(\w+)\s+[^,)]*REFERENCES\s+([^\s(]+)\s*\(\s*([^)]+)\s*\)`
  `CREATE\s+TABLE\s+(?:IF\s+NOT\s+EXISTS\s+)?([^\s(]+)`

(all with the `g` and `i` flags) — are linear sequences of case-insensitive
literals and greedy character classes, so they are embedded as token lists run
by a small backtracking matcher with exactly the regex preference order:
earliest starting position first, and each greedy quantifier takes the longest
length that lets the rest of the pattern match.  The optional
`IF NOT EXISTS` group is the two-alternative pattern list (with the group
first, as the greedy `?` tries it first).  Comment stripping and whitespace
collapapse precede matching, as in the source. -/

/-- The `\s` class (the inputs are ASCII; after cleaning only `' '` remains). -/
def isJsWs (c : Char) : Bool :=
  c = ' ' || c = '\t' || c = '\n' || c = '\r' || c = '\x0b' || c = '\x0c'

/-- The line-comment replacement: drop from `--` to end of line, every line. -/
def stripLineAux : Bool → List Char → List Char
  | _, [] => []
  | true, c :: cs => if c = '\n' then c :: stripLineAux false cs else stripLineAux true cs
  | false, '-' :: '-' :: cs => stripLineAux true cs
  | false, c :: cs => c :: stripLineAux false cs

def stripLineComments (l : List Char) : List Char :=
  stripLineAux false l

/-- Distance to just past the earliest `*/`, if any. -/
def closeSplit : List Char → Option Nat
  | '*' :: '/' :: _ => some 2
  | _ :: cs => (closeSplit cs).map (· + 1)
  | [] => none

/-- `.replace(/\/\*[\s\S]*?\*\//g, '')`: each `/*` is dropped together with
everything up to the nearest following `*/`; an unterminated `/*` matches
nothing and stays.  Fuelled by the input length, which bounds the recursion
depth (every step consumes at least one character). -/
def stripBlockCommentsF : Nat → List Char → List Char
  | 0, l => l
  | fuel + 1, l =>
    match l with
    | '/' :: '*' :: cs =>
      (match closeSplit cs with
       | some k => stripBlockCommentsF fuel (cs.drop k)
       | none => '/' :: '*' :: cs)
    | c :: cs => c :: stripBlockCommentsF fuel cs
    | [] => []

def stripBlockComments (l : List Char) : List Char :=
  stripBlockCommentsF l.length l

/-- `.replace(/\s+/g, ' ')`. -/
def collapseWs : List Char → List Char
  | [] => []
  | c :: cs =>
    if isJsWs c then
      (match cs with
       | c2 :: _ => if isJsWs c2 then collapseWs cs else ' ' :: collapseWs cs
       | [] => [' '])
    else c :: collapseWs cs

/-- `.trim()`. -/
def trimWs (l : List Char) : List Char :=
  ((l.dropWhile isJsWs).reverse.dropWhile isJsWs).reverse

def cleanDDL (l : List Char) : List Char :=
  trimWs (collapseWs (stripBlockComments (stripLineComments l)))

/-- `.replace(/["`]/g, '')` (the second stripped character is the backtick). -/
def stripQuoteChars (l : List Char) : List Char :=
  l.filter (fun c => c != '"' && c != Char.ofNat 96)

inductive CClass where
  | wsC
  | wordC
  | notRParen
  | notCommaRParen
  | notWsLParen
  deriving DecidableEq, Repr

def inClass : CClass → Char → Bool
  | .wsC, c => isJsWs c
  | .wordC, c => c.isAlphanum || c = '_'
  | .notRParen, c => c != ')'
  | .notCommaRParen, c => c != ',' && c != ')'
  | .notWsLParen, c => !(isJsWs c) && c != '('

inductive Tok where
  | lit (cs : List Char)
  | cls (c : CClass) (atLeastOne : Bool) (capture : Bool)

/-- Case-insensitive literal match: the remaining input on success. -/
def ciPrefixDrop : List Char → List Char → Option (List Char)
  | [], s => some s
  | _ :: _, [] => none
  | p :: ps, c :: cs => if p.toLower = c.toLower then ciPrefixDrop ps cs else none

/-- Length of the longest prefix inside the class. -/
def classPrefixLen (cc : CClass) : List Char → Nat
  | [] => 0
  | c :: cs => if inClass cc c then 1 + classPrefixLen cc cs else 0

/-- Match a token sequence at the start of `s`: the captures in order and the
rest of the input.  Greedy classes try the longest feasible length first. -/
def matchToks : List Tok → List Char → Option (List (List Char) × List Char)
  | [], s => some ([], s)
  | .lit p :: ts, s =>
    (match ciPrefixDrop p s with
     | some rest => matchToks ts rest
     | none => none)
  | .cls cc one cap :: ts, s =>
    let maxLen := classPrefixLen cc s
    let cands := if one then List.iota maxLen else List.iota maxLen ++ [0]
    cands.findSome? (fun k =>
      (matchToks ts (s.drop k)).map (fun r =>
        (if cap then s.take k :: r.1 else r.1, r.2)))

structure RegexMatch where
  idx : Nat
  caps : List (List Char)
  len : Nat
  deriving Repr

/-- First alternative that matches at the start of `s`, with match length. -/
def matchAltAt (pats : List (List Tok)) (s : List Char) : Option (List (List Char) × Nat) :=
  pats.findSome? (fun p => (matchToks p s).map (fun r => (r.1, s.length - r.2.length)))

/-- The `while ((match = re.exec(text)) !== null)` loop: earliest match from
the current index, then continue from its end (advancing at least one). -/
def scanAll (pats : List (List Tok)) (s : List Char) : Nat → Nat → List RegexMatch
  | _, 0 => []
  | i, fuel + 1 =>
    if i ≤ s.length then
      (match matchAltAt pats (s.drop i) with
       | some (caps, len) =>
         ⟨i, caps, len⟩ :: scanAll pats s (i + max len 1) fuel
       | none => scanAll pats s (i + 1) fuel)
    else []

def scanMatches (pats : List (List Tok)) (s : List Char) : List RegexMatch :=
  scanAll pats s 0 (s.length + 1)

def wsPlus : Tok := .cls .wsC true false
def wsStar : Tok := .cls .wsC false false

def fkPattern : List Tok :=
  [ .lit "FOREIGN".data, wsPlus, .lit "KEY".data, wsStar,
    .lit "(".data, wsStar, .cls .notRParen true true, wsStar, .lit ")".data,
    wsPlus, .lit "REFERENCES".data, wsPlus,
    .cls .notWsLParen true true, wsStar, .lit "(".data,
    wsStar, .cls .notRParen true true, wsStar, .lit ")".data ]

def inlinePattern : List Tok :=
  [ .cls .wordC true true, wsPlus, .cls .notCommaRParen false false,
    .lit "REFERENCES".data, wsPlus,
    .cls .notWsLParen true true, wsStar, .lit "(".data,
    wsStar, .cls .notRParen true true, wsStar, .lit ")".data ]

def createTableWithIf : List Tok :=
  [ .lit "CREATE".data, wsPlus, .lit "TABLE".data, wsPlus,
    .lit "IF".data, wsPlus, .lit "NOT".data, wsPlus, .lit "EXISTS".data, wsPlus,
    .cls .notWsLParen true true ]

def createTablePlain : List Tok :=
  [ .lit "CREATE".data, wsPlus, .lit "TABLE".data, wsPlus,
    .cls .notWsLParen true true ]

/-- `DDLParser.findTableNameForConstraint`: last `CREATE TABLE` header before
the constraint's offset; `null` when there is none. -/
def findTableNameForConstraint (cleaned : List Char) (constraintIndex : Nat) :
    Option String :=
  let beforeConstraint := cleaned.take constraintIndex
  match (scanMatches [createTableWithIf, createTablePlain] beforeConstraint).getLast? with
  | some m =>
    (match m.caps with
     | cap :: _ => some ⟨stripQuoteChars (trimWs cap)⟩
     | [] => none)
  | none => none

/-- A `FOREIGN KEY … REFERENCES …` match made into a relationship (all three
captures are trimmed and unquoted). -/
def fkRelFromMatch (cleaned : List Char) (m : RegexMatch) : Option TableRelationship :=
  match m.caps with
  | c1 :: c2 :: c3 :: _ =>
    (findTableNameForConstraint cleaned m.idx).map (fun tn =>
      { tableName := tn
        referencedTable := ⟨stripQuoteChars (trimWs c2)⟩
        columnName := ⟨stripQuoteChars (trimWs c1)⟩
        referencedColumn := ⟨stripQuoteChars (trimWs c3)⟩ })
  | _ => none

/-- An inline `REFERENCES` match made into a relationship (the column capture
is only trimmed — the source does not unquote it). -/
def inlineRelFromMatch (cleaned : List Char) (m : RegexMatch) : Option TableRelationship :=
  match m.caps with
  | c1 :: c2 :: c3 :: _ =>
    (findTableNameForConstraint cleaned m.idx).map (fun tn =>
      { tableName := tn
        referencedTable := ⟨stripQuoteChars (trimWs c2)⟩
        columnName := ⟨trimWs c1⟩
        referencedColumn := ⟨stripQuoteChars (trimWs c3)⟩ })
  | _ => none

/-- `DDLParser.parseRelationships` (src/utils/ddl-parser.ts, lines 312-375):
clean the script, collect every `FOREIGN KEY` constraint in text order, then
every inline `REFERENCES` constraint in text order, resolving each to its
owning table and silently dropping matches with no preceding table header. -/
def parseRelationships (ddlContent : String) : List TableRelationship :=
  let cleaned := cleanDDL ddlContent.data
  let fkRels := (scanMatches [fkPattern] cleaned).filterMap (fkRelFromMatch cleaned)
  let inlineRels := (scanMatches [inlinePattern] cleaned).filterMap (inlineRelFromMatch cleaned)
  fkRels ++ inlineRels

/-- The table-level edges of the filtered dependency graph, one
`(referencedTable, tableName)` pair per relationship whose two endpoints both
belong to the table set, in relationship-list order. -/
def filteredPairs (tables : List String)
    (relationships : List TableRelationship) : List (String × String) :=
  (relationships.filter (fun rel =>
      decide (rel.tableName ∈ tables) && decide (rel.referencedTable ∈ tables))).map
    (fun rel => (rel.referencedTable, rel.tableName))

/-- How many filtered edges enter `u` from tables outside `P`. -/
def inCount (FP : List (String × String)) (u : String) (P : List String) : Int :=
  ((FP.filter (fun e => decide (e.2 = u) && decide (e.1 ∉ P))).length : Int)

-- ===================================================================
-- Theorems
-- ===================================================================

/-! #### Character facts for `sanitizeIdentifier` -/

theorem toNat_toLower (c : Char) :
    (Char.toLower c).toNat = if 65 ≤ c.toNat ∧ c.toNat ≤ 90 then c.toNat + 32 else c.toNat := by
  unfold Char.toLower
  split
  · next h =>
    rw [if_pos (by omega)]
    have hv : (c.toNat + 32).isValidChar := by
      constructor
      omega
    rw [Char.ofNat, dif_pos hv]
    simp [Char.ofNatAux, Char.toNat, UInt32.toNat]
  · next h =>
    rw [if_neg (by omega)]

theorem toLower_eq_self {c : Char} (h : ¬(65 ≤ c.toNat ∧ c.toNat ≤ 90)) :
    Char.toLower c = c := by
  unfold Char.toLower
  rw [if_neg (by omega)]

theorem isUpper_iff (c : Char) : c.isUpper = true ↔ 65 ≤ c.toNat ∧ c.toNat ≤ 90 := by
  simp [Char.isUpper, UInt32.le_def, BitVec.le_def, Char.toNat, UInt32.toNat]

theorem isLower_iff (c : Char) : c.isLower = true ↔ 97 ≤ c.toNat ∧ c.toNat ≤ 122 := by
  simp [Char.isLower, UInt32.le_def, BitVec.le_def, Char.toNat, UInt32.toNat]

theorem isDigit_iff (c : Char) : c.isDigit = true ↔ 48 ≤ c.toNat ∧ c.toNat ≤ 57 := by
  simp [Char.isDigit, UInt32.le_def, BitVec.le_def, Char.toNat, UInt32.toNat]

theorem isAlphanum_iff (c : Char) :
    c.isAlphanum = true ↔
      (48 ≤ c.toNat ∧ c.toNat ≤ 57) ∨ (65 ≤ c.toNat ∧ c.toNat ≤ 90) ∨
        (97 ≤ c.toNat ∧ c.toNat ≤ 122) := by
  simp [Char.isAlphanum, Char.isAlpha, isUpper_iff, isDigit_iff, isLower_iff]
  tauto

theorem toLower_isDigit (c : Char) : (Char.toLower c).isDigit = c.isDigit := by
  by_cases h : 65 ≤ c.toNat ∧ c.toNat ≤ 90
  · have h1 : (Char.toLower c).isDigit = false := by
      rw [Bool.eq_false_iff]
      intro hd
      have := (isDigit_iff _).mp hd
      rw [toNat_toLower, if_pos h] at this
      omega
    have h2 : c.isDigit = false := by
      rw [Bool.eq_false_iff]
      intro hd
      have := (isDigit_iff _).mp hd
      omega
    rw [h1, h2]
  · rw [toLower_eq_self h]

/-- Characters of the sanitized image are fixed by a second pass: stable under
`sanitizeChar` and under `Char.toLower`. -/
theorem sanitized_char_fix (c : Char) :
    sanitizeChar (Char.toLower (sanitizeChar c)) = Char.toLower (sanitizeChar c) ∧
    Char.toLower (Char.toLower (sanitizeChar c)) = Char.toLower (sanitizeChar c) := by
  by_cases h : c.isAlphanum = true ∨ c = '_'
  · have hs : sanitizeChar c = c := by
      unfold sanitizeChar
      rw [if_pos (by exact_mod_cast h)]
    rw [hs]
    rcases h with h | rfl
    case pos.inr => decide
    · by_cases hup : 65 ≤ c.toNat ∧ c.toNat ≤ 90
      · have hlow : 97 ≤ (Char.toLower c).toNat ∧ (Char.toLower c).toNat ≤ 122 := by
          rw [toNat_toLower, if_pos hup]
          omega
        constructor
        · unfold sanitizeChar
          rw [if_pos]
          left
          rw [isAlphanum_iff]
          tauto
        · exact toLower_eq_self (by omega)
      · rw [toLower_eq_self hup]
        constructor
        · unfold sanitizeChar
          rw [if_pos (Or.inl h)]
        · exact toLower_eq_self hup
  · have hs : sanitizeChar c = '_' := by
      unfold sanitizeChar
      rw [if_neg (by exact_mod_cast h)]
    rw [hs]
    decide

theorem sanitizeList_mem {c : Char} {l : List Char} (h : c ∈ sanitizeList l) :
    ∃ d, c = Char.toLower (sanitizeChar d) := by
  unfold sanitizeList at h
  rcases List.mem_map.mp h with ⟨e, he, rfl⟩
  have he2 : e = '_' ∨ e ∈ l.map sanitizeChar := by
    generalize hm : l.map sanitizeChar = w at he ⊢
    cases w with
    | nil => simp [prefixUnderscore] at he
    | cons c0 cs =>
      rw [show prefixUnderscore (c0 :: cs)
          = if c0.isDigit then '_' :: c0 :: cs else c0 :: cs from rfl] at he
      split at he
      · simp only [List.mem_cons] at he ⊢
        tauto
      · simp only [List.mem_cons] at he ⊢
        tauto
  rcases he2 with rfl | he2
  · exact ⟨'_', by decide⟩
  · rcases List.mem_map.mp he2 with ⟨d, _, rfl⟩
    exact ⟨d, rfl⟩

theorem sanitizeList_fix {c : Char} {l : List Char} (h : c ∈ sanitizeList l) :
    sanitizeChar c = c ∧ Char.toLower c = c := by
  rcases sanitizeList_mem h with ⟨d, rfl⟩
  exact sanitized_char_fix d

theorem sanitizeList_head_not_digit {c : Char} {l : List Char}
    (h : (sanitizeList l).head? = some c) : c.isDigit = false := by
  unfold sanitizeList at h
  generalize hm : l.map sanitizeChar = w at h
  cases w with
  | nil => simp [prefixUnderscore] at h
  | cons c0 cs =>
    rw [show prefixUnderscore (c0 :: cs)
        = if c0.isDigit then '_' :: c0 :: cs else c0 :: cs from rfl] at h
    split at h
    · next hd =>
      simp only [List.map_cons, List.head?_cons, Option.some.injEq] at h
      subst h
      decide
    · next hd =>
      simp only [List.map_cons, List.head?_cons, Option.some.injEq] at h
      subst h
      rw [toLower_isDigit]
      simpa using hd

theorem sanitizeList_idem (l : List Char) :
    sanitizeList (sanitizeList l) = sanitizeList l := by
  have hmap : (sanitizeList l).map sanitizeChar = sanitizeList l := by
    have := List.map_congr_left (l := sanitizeList l) (f := sanitizeChar) (g := id)
      (fun c hc => (sanitizeList_fix hc).1)
    simpa using this
  have hpre : prefixUnderscore (sanitizeList l) = sanitizeList l := by
    cases hsl : sanitizeList l with
    | nil => rfl
    | cons c0 cs =>
      have hd : c0.isDigit = false :=
        sanitizeList_head_not_digit (by rw [hsl]; rfl)
      show (match c0 :: cs with
        | [] => []
        | c :: cs => if c.isDigit = true then '_' :: c :: cs else c :: cs) = c0 :: cs
      simp [hd]
  have hlow : (sanitizeList l).map Char.toLower = sanitizeList l := by
    have := List.map_congr_left (l := sanitizeList l) (f := Char.toLower) (g := id)
      (fun c hc => (sanitizeList_fix hc).2)
    simpa using this
  calc sanitizeList (sanitizeList l)
      = (prefixUnderscore ((sanitizeList l).map sanitizeChar)).map Char.toLower := rfl
    _ = sanitizeList l := by rw [hmap, hpre, hlow]

/-- C6: `sanitizeIdentifier` is idempotent — `canon(canon(s)) = canon(s)` for
every string — and in particular a name with a leading digit receives an
underscore prefix, and mixed case collapses to lowercase (no uppercase letter
survives). -/
theorem sanitizeIdentifier_idempotent :
    (∀ s : String, sanitizeIdentifier (sanitizeIdentifier s) = sanitizeIdentifier s) ∧
    (∀ (s : String) (c : Char), s.data.head? = some c → c.isDigit = true →
      (sanitizeIdentifier s).data.head? = some '_') ∧
    (∀ (s : String) (c : Char), c ∈ (sanitizeIdentifier s).data → c.isUpper = false) := by
  refine ⟨fun s => ?_, fun s c hh hd => ?_, fun s c hc => ?_⟩
  · show (⟨sanitizeList (sanitizeList s.data)⟩ : String) = ⟨sanitizeList s.data⟩
    rw [sanitizeList_idem]
  · show (sanitizeList s.data).head? = some '_'
    cases hsd : s.data with
    | nil => rw [hsd] at hh; simp at hh
    | cons c0 cs =>
      rw [hsd] at hh
      simp only [List.head?_cons, Option.some.injEq] at hh
      subst hh
      have halnum : c0.isAlphanum = true := by
        rw [isAlphanum_iff]
        have := (isDigit_iff c0).mp hd
        omega
      have hschar : sanitizeChar c0 = c0 := by
        unfold sanitizeChar
        rw [if_pos (Or.inl halnum)]
      unfold sanitizeList
      simp only [List.map_cons, hschar]
      rw [show prefixUnderscore (c0 :: List.map sanitizeChar cs)
          = if c0.isDigit then '_' :: c0 :: List.map sanitizeChar cs
            else c0 :: List.map sanitizeChar cs from rfl]
      rw [if_pos hd]
      rfl
  · have hfix := sanitizeList_fix (l := s.data) hc
    rw [Bool.eq_false_iff]
    intro hup
    have h1 := congrArg Char.toNat hfix.2
    rw [toNat_toLower, if_pos ((isUpper_iff c).mp hup)] at h1
    omega

/-- C8 (counterexample): a binary payload — an object value that is neither an
array nor a `Date` — is classified as `object`, not as `binary`
(`inferTypeFromValue` has no branch producing `binary`). -/
theorem inferTypeFromValue_binary_counterexample :
    inferTypeFromValue (.vbinary [] "ab") = .object ∧
    decide (MongoFieldType.object = MongoFieldType.binary) = false := by
  constructor
  · rfl
  · rfl

/-- C8 (amended): `inferTypeFromValue` is total — every value maps to exactly
one of the eight tags it can produce — but a binary payload goes down the
generic object branch: it yields `objectId` when its `toString` form is 24 hex
characters and `object` otherwise, never the tag `binary`. -/
theorem inferTypeFromValue_total_binary_as_object :
    (∀ (bytes : List Nat) (r : String),
      inferTypeFromValue (.vbinary bytes r) =
        if isHex24 r then .objectId else .object) ∧
    (∀ v : JSValue, inferTypeFromValue v ∈
      [MongoFieldType.null, .string, .number, .boolean, .date, .array,
       .objectId, .object]) := by
  constructor
  · intro bytes r
    rfl
  · intro v
    cases v <;>
      simp [inferTypeFromValue, isNullish, jsTypeof, isDateV, isArrayV, jsToString] <;>
      split <;> simp

theorem mapGet_cons {α : Type} (p : String × α) (ps : List (String × α)) (k : String) :
    mapGet (p :: ps) k = if p.1 = k then some p.2 else mapGet ps k := rfl

theorem mapGet_append_of_some {α : Type} {m : List (String × α)} {k : String} {x : α}
    (h : mapGet m k = some x) (l : List (String × α)) : mapGet (m ++ l) k = some x := by
  induction m with
  | nil => simp [mapGet] at h
  | cons p ps ih =>
    rw [mapGet_cons] at h
    rw [List.cons_append, mapGet_cons]
    by_cases hp : p.1 = k
    · rw [if_pos hp] at h ⊢
      exact h
    · rw [if_neg hp] at h ⊢
      exact ih h

theorem mapGet_updateEntry {α : Type} (f : α → α) (m : List (String × α)) (k k' : String) :
    mapGet (updateEntry f m k) k' =
      if k' = k then (mapGet m k).map f else mapGet m k' := by
  induction m with
  | nil => simp [mapGet, updateEntry]
  | cons p ps ih =>
    unfold updateEntry
    split
    · next hp =>
      subst hp
      simp only [mapGet_cons]
      by_cases hk : k' = p.1
      · simp [hk]
      · have hk2 : ¬(p.1 = k') := fun he => hk he.symm
        simp [hk, hk2]
    · next hp =>
      simp only [mapGet_cons, ih]
      by_cases hk : p.1 = k'
      · have h66 : ¬(k' = k) := fun he => hp (by rw [hk, he])
        simp [hk, h66]
      · simp [hk, hp]

theorem observeField_type_stable (v : JSValue) (fn : String) {m : FieldMap}
    {name : String} {fd : FieldSchema}
    (h : mapGet m name = some fd) (ht : fd.type ≠ .null) :
    ∃ fd', mapGet (observeField v fn m) name = some fd' ∧ fd'.type = fd.type := by
  simp only [observeField]
  have h1 : mapGet (if (mapGet m fn).isSome = true then m
      else m ++ [(fn, ⟨fn, inferTypeFromValue v, false, isArrayV v⟩)]) name = some fd := by
    split
    · exact h
    · exact mapGet_append_of_some h _
  split
  · exact ⟨fd, h1, rfl⟩
  · rw [mapGet_updateEntry]
    by_cases hk : name = fn
    · have h1f : mapGet (if (mapGet m fn).isSome = true then m
          else m ++ [(fn, ⟨fn, inferTypeFromValue v, false, isArrayV v⟩)]) fn = some fd :=
        hk ▸ h1
      rw [if_pos hk, h1f]
      refine ⟨promoteType v fd, rfl, ?_⟩
      unfold promoteType
      rw [if_neg ht]
    · rw [if_neg hk]
      exact ⟨fd, h1, rfl⟩

theorem updateEntry_markArray_stable (fn : String) {m : FieldMap}
    {name : String} {fd : FieldSchema} (h : mapGet m name = some fd) :
    ∃ fd', mapGet (updateEntry markArray m fn) name = some fd' ∧ fd'.type = fd.type := by
  rw [mapGet_updateEntry]
  by_cases hk : name = fn
  · have hf : mapGet m fn = some fd := hk ▸ h
    rw [if_pos hk, hf]
    exact ⟨markArray fd, rfl, rfl⟩
  · rw [if_neg hk]
    exact ⟨fd, h, rfl⟩

theorem analyzeDocumentF_type_stable (fuel : Nat) :
    ∀ (ents : List (String × JSValue)) (m : FieldMap) (p name : String) (fd : FieldSchema),
      mapGet m name = some fd → fd.type ≠ .null →
      ∃ fd', mapGet (analyzeDocumentF fuel ents m p) name = some fd' ∧ fd'.type = fd.type := by
  induction fuel with
  | zero =>
    intro ents m p name fd h ht
    cases ents with
    | nil => exact ⟨fd, h, rfl⟩
    | cons kv rest => exact ⟨fd, h, rfl⟩
  | succ fuel ih =>
    intro ents m p name fd h ht
    cases ents with
    | nil => exact ⟨fd, h, rfl⟩
    | cons kv rest =>
      obtain ⟨key, v⟩ := kv
      obtain ⟨fd2, hg2, he2⟩ :=
        observeField_type_stable v (if p = "" then key else p ++ "." ++ key) h ht
      have ht2 : fd2.type ≠ .null := by rw [he2]; exact ht
      have h3 : ∃ fd3,
          mapGet (if isNestedObject v then
              analyzeDocumentF fuel (jsEntries v)
                (observeField v (if p = "" then key else p ++ "." ++ key) m)
                (if p = "" then key else p ++ "." ++ key)
            else observeField v (if p = "" then key else p ++ "." ++ key) m) name
            = some fd3 ∧ fd3.type = fd.type := by
        split
        · obtain ⟨fd3, hg3, he3⟩ := ih (jsEntries v) _ _ name fd2 hg2 ht2
          exact ⟨fd3, hg3, by rw [he3, he2]⟩
        · exact ⟨fd2, hg2, he2⟩
      obtain ⟨fd3, hg3, he3⟩ := h3
      have ht3 : fd3.type ≠ .null := by rw [he3]; exact ht
      cases v with
      | varray elems =>
        cases elems with
        | nil =>
          obtain ⟨fd', hg', he'⟩ := ih rest _ p name fd3 hg3 ht3
          exact ⟨fd', hg', by rw [he', he3]⟩
        | cons x xs =>
          obtain ⟨fd4, hg4, he4⟩ := updateEntry_markArray_stable
            (if p = "" then key else p ++ "." ++ key) hg3
          have ht4 : fd4.type ≠ .null := by rw [he4]; exact ht3
          by_cases hobj : isObjectTypeof x = true
          · obtain ⟨fd5, hg5, he5⟩ := ih (jsEntries x)
              (updateEntry markArray _ (if p = "" then key else p ++ "." ++ key))
              (if p = "" then key else p ++ "." ++ key) name fd4 hg4 ht4
            have ht5 : fd5.type ≠ .null := by rw [he5]; exact ht4
            obtain ⟨fd', hg', he'⟩ := ih rest _ p name fd5 hg5 ht5
            refine ⟨fd', ?_, by rw [he', he5, he4, he3]⟩
            simp only [analyzeDocumentF, hobj, if_true]
            exact hg'
          · obtain ⟨fd', hg', he'⟩ := ih rest _ p name fd4 hg4 ht4
            refine ⟨fd', ?_, by rw [he', he4, he3]⟩
            simp only [analyzeDocumentF, hobj, if_false]
            exact hg'
      | vnull =>
        obtain ⟨fd', hg', he'⟩ := ih rest _ p name fd3 hg3 ht3
        exact ⟨fd', hg', by rw [he', he3]⟩
      | vundefined =>
        obtain ⟨fd', hg', he'⟩ := ih rest _ p name fd3 hg3 ht3
        exact ⟨fd', hg', by rw [he', he3]⟩
      | vstring s =>
        obtain ⟨fd', hg', he'⟩ := ih rest _ p name fd3 hg3 ht3
        exact ⟨fd', hg', by rw [he', he3]⟩
      | vnumber n =>
        obtain ⟨fd', hg', he'⟩ := ih rest _ p name fd3 hg3 ht3
        exact ⟨fd', hg', by rw [he', he3]⟩
      | vbool b =>
        obtain ⟨fd', hg', he'⟩ := ih rest _ p name fd3 hg3 ht3
        exact ⟨fd', hg', by rw [he', he3]⟩
      | vdate ms =>
        obtain ⟨fd', hg', he'⟩ := ih rest _ p name fd3 hg3 ht3
        exact ⟨fd', hg', by rw [he', he3]⟩
      | vobject fs r =>
        obtain ⟨fd', hg', he'⟩ := ih rest _ p name fd3 hg3 ht3
        exact ⟨fd', hg', by rw [he', he3]⟩
      | vbinary bs r =>
        obtain ⟨fd', hg', he'⟩ := ih rest _ p name fd3 hg3 ht3
        exact ⟨fd', hg', by rw [he', he3]⟩
      | vother r =>
        obtain ⟨fd', hg', he'⟩ := ih rest _ p name fd3 hg3 ht3
        exact ⟨fd', hg', by rw [he', he3]⟩

theorem jsSize_pos (v : JSValue) : 1 ≤ jsSize v := by
  cases v <;> simp [jsSize] <;> omega

theorem entsSize_cons (k : String) (v : JSValue) (r : List (String × JSValue)) :
    entsSize ((k, v) :: r) = jsSize v + entsSize r := rfl

theorem entsSize_enumEntries (i : Nat) (xs : List JSValue) :
    entsSize (enumEntries i xs) = arrSize xs := by
  induction xs generalizing i with
  | nil => simp [enumEntries, arrSize, entsSize]
  | cons y ys ih => simp [enumEntries, arrSize, entsSize, ih]

theorem entsSize_enumBytes (i : Nat) (bs : List Nat) :
    entsSize (enumBytes i bs) = bs.length := by
  induction bs generalizing i with
  | nil => simp [enumBytes, entsSize]
  | cons y ys ih => simp [enumBytes, entsSize, ih, jsSize] <;> omega

theorem entsSize_jsEntries_lt (v : JSValue) : entsSize (jsEntries v) < jsSize v := by
  cases v with
  | varray xs =>
    cases xs with
    | nil => simp [jsEntries, jsSize, enumEntries, entsSize, arrSize]
    | cons y ys => simp [jsEntries, jsSize, entsSize_enumEntries] <;> omega
  | vobject fs r => simp [jsEntries, jsSize] <;> omega
  | vbinary bs r => simp [jsEntries, jsSize, entsSize_enumBytes] <;> omega
  | vnull => simp [jsEntries, jsSize, entsSize]
  | vundefined => simp [jsEntries, jsSize, entsSize]
  | vstring s => simp [jsEntries, jsSize, entsSize]
  | vnumber n => simp [jsEntries, jsSize, entsSize]
  | vbool b => simp [jsEntries, jsSize, entsSize]
  | vdate ms => simp [jsEntries, jsSize, entsSize]
  | vother r => simp [jsEntries, jsSize, entsSize]

theorem arrSize_head_le (x : JSValue) (xs : List JSValue) :
    jsSize x ≤ arrSize (x :: xs) := by
  have : arrSize (x :: xs) = jsSize x + arrSize xs := rfl
  omega

/-- Any fuel at least the document-tree size gives the same run: the fuel in
`analyzeDocumentF` never runs out before the traversal is complete. -/
theorem analyzeDocumentF_fuel_irrelevant :
    ∀ (fuel fuel' : Nat) (ents : List (String × JSValue)) (m : FieldMap) (p : String),
      entsSize ents ≤ fuel → entsSize ents ≤ fuel' →
      analyzeDocumentF fuel ents m p = analyzeDocumentF fuel' ents m p := by
  intro fuel
  induction fuel with
  | zero =>
    intro fuel' ents m p hb hb'
    cases ents with
    | nil => cases fuel' <;> rfl
    | cons kv rest =>
      exfalso
      obtain ⟨key, v⟩ := kv
      have h1 := jsSize_pos v
      rw [entsSize_cons] at hb
      omega
  | succ fuel ih =>
    intro fuel' ents m p hb hb'
    cases ents with
    | nil => cases fuel' <;> rfl
    | cons kv rest =>
      obtain ⟨key, v⟩ := kv
      rw [entsSize_cons] at hb hb'
      cases fuel' with
      | zero =>
        exfalso
        have h1 := jsSize_pos v
        omega
      | succ fuel' =>
        have hvpos := jsSize_pos v
        have hrest : entsSize rest ≤ fuel := by omega
        have hrest' : entsSize rest ≤ fuel' := by omega
        have hv := entsSize_jsEntries_lt v
        have hvb : entsSize (jsEntries v) ≤ fuel := by omega
        have hvb' : entsSize (jsEntries v) ≤ fuel' := by omega
        cases v with
        | varray elems =>
          cases elems with
          | nil =>
            simp only [analyzeDocumentF]
            rw [ih fuel' (jsEntries (JSValue.varray [])) _ _ hvb hvb',
              ih fuel' rest _ p hrest hrest']
          | cons x xs =>
            have hx := entsSize_jsEntries_lt x
            have hxa := arrSize_head_le x xs
            have hxle : jsSize (JSValue.varray (x :: xs)) = 1 + arrSize (x :: xs) := rfl
            have hxb : entsSize (jsEntries x) ≤ fuel := by simp [jsSize] at hvpos ⊢; omega
            have hxb' : entsSize (jsEntries x) ≤ fuel' := by omega
            simp only [analyzeDocumentF]
            rw [ih fuel' (jsEntries (JSValue.varray (x :: xs))) _ _ hvb hvb',
              ih fuel' (jsEntries x) _ _ hxb hxb',
              ih fuel' rest _ p hrest hrest']
        | vobject fs r =>
          simp only [analyzeDocumentF, isNestedObject, if_true]
          rw [ih fuel' (jsEntries (JSValue.vobject fs r)) _ _ hvb hvb',
            ih fuel' rest _ p hrest hrest']
        | vbinary bs r =>
          simp only [analyzeDocumentF, isNestedObject, if_true]
          rw [ih fuel' (jsEntries (JSValue.vbinary bs r)) _ _ hvb hvb',
            ih fuel' rest _ p hrest hrest']
        | vnull =>
          simp only [analyzeDocumentF]
          rw [ih fuel' (jsEntries JSValue.vnull) _ _ hvb hvb',
            ih fuel' rest _ p hrest hrest']
        | vundefined =>
          simp only [analyzeDocumentF]
          rw [ih fuel' (jsEntries JSValue.vundefined) _ _ hvb hvb',
            ih fuel' rest _ p hrest hrest']
        | vstring s =>
          simp only [analyzeDocumentF]
          rw [ih fuel' (jsEntries (JSValue.vstring s)) _ _ hvb hvb',
            ih fuel' rest _ p hrest hrest']
        | vnumber n =>
          simp only [analyzeDocumentF]
          rw [ih fuel' (jsEntries (JSValue.vnumber n)) _ _ hvb hvb',
            ih fuel' rest _ p hrest hrest']
        | vbool b =>
          simp only [analyzeDocumentF]
          rw [ih fuel' (jsEntries (JSValue.vbool b)) _ _ hvb hvb',
            ih fuel' rest _ p hrest hrest']
        | vdate ms =>
          simp only [analyzeDocumentF]
          rw [ih fuel' (jsEntries (JSValue.vdate ms)) _ _ hvb hvb',
            ih fuel' rest _ p hrest hrest']
        | vother r =>
          simp only [analyzeDocumentF]
          rw [ih fuel' (jsEntries (JSValue.vother r)) _ _ hvb hvb',
            ih fuel' rest _ p hrest hrest']

/-- C7: once a field's descriptor holds a non-null type, no later observation
folded into the field map during schema analysis — across the rest of the
document and all later sampled documents, and in particular no later `null`
observation — ever changes that type: the first non-null observed type is
final. -/
theorem analyzeDocuments_type_stable
    (docs : List (List (String × JSValue))) (m : FieldMap)
    (name : String) (fd : FieldSchema)
    (h : mapGet m name = some fd) (ht : fd.type ≠ MongoFieldType.null) :
    ∃ fd', mapGet (analyzeDocuments docs m) name = some fd' ∧ fd'.type = fd.type := by
  induction docs generalizing m fd with
  | nil => exact ⟨fd, h, rfl⟩
  | cons doc rest ih =>
    obtain ⟨fd1, hg1, he1⟩ :=
      analyzeDocumentF_type_stable (entsSize doc) doc m "" name fd h ht
    obtain ⟨fd', hg', he'⟩ := ih (analyzeDocument doc m "") fd1 hg1 (by rw [he1]; exact ht)
    exact ⟨fd', hg', by rw [he', he1]⟩

/-- Witness for C7: a field already typed `string` keeps that type across a
later document observing `null` for it. -/
theorem analyzeDocuments_type_stable_witness :
    ∃ fd', mapGet (analyzeDocuments [[("a", JSValue.vnull)]]
        [("a", ⟨"a", MongoFieldType.string, false, false⟩)]) "a" = some fd' ∧
      fd'.type = MongoFieldType.string :=
  analyzeDocuments_type_stable [[("a", JSValue.vnull)]]
    [("a", ⟨"a", MongoFieldType.string, false, false⟩)] "a"
    ⟨"a", MongoFieldType.string, false, false⟩ rfl (by decide)

theorem basicFieldStep_append (pgSchema : PostgresTableSchema) (pgColumns : List String)
    (acc : List ColumnMapping) (field : FieldSchema) :
    ∃ t, basicFieldStep pgSchema pgColumns acc field = acc ++ t := by
  simp only [basicFieldStep]
  split
  · exact ⟨[], by simp⟩
  · split
    · exact ⟨_, rfl⟩
    · split
      · exact ⟨_, rfl⟩
      · exact ⟨[], by simp⟩

theorem foldl_basicFieldStep_append (pgSchema : PostgresTableSchema)
    (pgColumns : List String) :
    ∀ (fields : List FieldSchema) (acc : List ColumnMapping),
      ∃ t, List.foldl (basicFieldStep pgSchema pgColumns) acc fields = acc ++ t := by
  intro fields
  induction fields with
  | nil => exact fun acc => ⟨[], by simp⟩
  | cons f rest ih =>
    intro acc
    obtain ⟨t1, h1⟩ := basicFieldStep_append pgSchema pgColumns acc f
    obtain ⟨t2, h2⟩ := ih (acc ++ t1)
    refine ⟨t1 ++ t2, ?_⟩
    rw [List.foldl_cons, h1, h2, List.append_assoc]

/-- C4 (counterexample): with one source field and no destination columns the
fallback returns the empty list although an input is non-empty. -/
theorem createBasicColumnMappings_counterexample :
    createBasicColumnMappings
      ⟨"m", [⟨"foo", MongoFieldType.string, false, false⟩]⟩ ⟨"t", []⟩ = [] ∧
    (⟨"m", [⟨"foo", MongoFieldType.string, false, false⟩]⟩ : CollectionSchema).fields.length = 1 := by
  constructor
  · rfl
  · rfl

/-- C4 (amended): the deterministic fallback mapping can be empty even when an
input is non-empty.  It is empty whenever the destination column list is empty
(whatever the source fields), and it is non-empty whenever the destination has
a unique-or-primary column whose lowercased name contains "id" (whatever the
source fields); when both inputs are empty it is empty. -/
theorem createBasicColumnMappings_spec (mongoSchema : CollectionSchema)
    (pgSchema : PostgresTableSchema) :
    (pgSchema.columns = [] → createBasicColumnMappings mongoSchema pgSchema = []) ∧
    ((∃ col ∈ pgSchema.columns,
        (strIncludes (strToLower col.name) "id" && (col.unique || col.primaryKey)) = true) →
      createBasicColumnMappings mongoSchema pgSchema ≠ []) := by
  constructor
  · intro hp
    have hstep : ∀ acc f, basicFieldStep pgSchema [] acc f = acc := by
      intro acc f
      simp only [basicFieldStep]
      split
      · rfl
      · rw [if_neg (by simp)]
        rw [hp]
        simp [List.find?]
    have hfold : ∀ (fields : List FieldSchema) (acc : List ColumnMapping),
        List.foldl (basicFieldStep pgSchema []) acc fields = acc := by
      intro fields
      induction fields with
      | nil => intro acc; rfl
      | cons f rest ih => intro acc; rw [List.foldl_cons, hstep]; exact ih acc
    unfold createBasicColumnMappings
    rw [hp]
    simp only [List.map_nil, List.find?_nil]
    exact hfold _ _
  · intro hex
    obtain ⟨col, hmem, hcol⟩ := hex
    have hsome : (pgSchema.columns.find? (fun col =>
        strIncludes (strToLower col.name) "id" && (col.unique || col.primaryKey))).isSome := by
      rw [List.find?_isSome]
      exact ⟨col, hmem, hcol⟩
    obtain ⟨idCol, hfind⟩ := Option.isSome_iff_exists.mp hsome
    unfold createBasicColumnMappings
    rw [hfind]
    obtain ⟨t, ht⟩ := foldl_basicFieldStep_append pgSchema
      (pgSchema.columns.map (fun col => col.name)) mongoSchema.fields [⟨"_id", idCol.name⟩]
    rw [ht]
    simp

theorem outcomeNames_migrated (n : String) (c : Nat) (rest : List CollOutcome) :
    outcomeNames (.migrated n c :: rest) = n :: outcomeNames rest := rfl

theorem outcomeNames_failed (e : String) (rest : List CollOutcome) :
    outcomeNames (.failed e :: rest) = outcomeNames rest := rfl

theorem outcomeDocs_migrated (n : String) (c : Nat) (rest : List CollOutcome) :
    outcomeDocs (.migrated n c :: rest) = c + outcomeDocs rest := by
  simp [outcomeDocs]

theorem outcomeDocs_failed (e : String) (rest : List CollOutcome) :
    outcomeDocs (.failed e :: rest) = outcomeDocs rest := by
  simp [outcomeDocs]

theorem outcomeErrors_migrated (n : String) (c : Nat) (rest : List CollOutcome) :
    outcomeErrors (.migrated n c :: rest) = outcomeErrors rest := rfl

theorem outcomeErrors_failed (e : String) (rest : List CollOutcome) :
    outcomeErrors (.failed e :: rest) = e :: outcomeErrors rest := rfl

theorem foldl_applyOutcome (outs : List CollOutcome) (r : MigrationResult) :
    (outs.foldl applyOutcome r).migratedCollections
        = r.migratedCollections ++ outcomeNames outs ∧
    (outs.foldl applyOutcome r).totalDocuments = r.totalDocuments + outcomeDocs outs ∧
    (outs.foldl applyOutcome r).errors = r.errors ++ outcomeErrors outs ∧
    (outs.foldl applyOutcome r).success = r.success := by
  induction outs generalizing r with
  | nil => simp [outcomeNames, outcomeDocs, outcomeErrors]
  | cons o rest ih =>
    rw [List.foldl_cons]
    obtain ⟨h1, h2, h3, h4⟩ := ih (applyOutcome r o)
    cases o with
    | migrated n c =>
      rw [outcomeNames_migrated, outcomeDocs_migrated, outcomeErrors_migrated,
        h1, h2, h3, h4]
      refine ⟨?_, ?_, ?_, ?_⟩ <;> simp [applyOutcome] <;> omega
    | failed e =>
      rw [outcomeNames_failed, outcomeDocs_failed, outcomeErrors_failed,
        h1, h2, h3, h4]
      refine ⟨?_, ?_, ?_, ?_⟩ <;> simp [applyOutcome]

/-- C9: `migrate` always resolves to a result object (it is a total function
of the run's trace, whether the `try` body completed or an exception reached
the `catch`); `success` is `true` exactly when `errors` is empty; and the
partial progress — the migrated collection names and the document count — is
reported alongside whatever errors were recorded. -/
theorem migrate_result_spec (trace : RunTrace) :
    ((migrate trace).success = true ↔ (migrate trace).errors = []) ∧
    (migrate trace).migratedCollections = outcomeNames (traceOutcomes trace) ∧
    (migrate trace).totalDocuments = outcomeDocs (traceOutcomes trace) := by
  cases trace with
  | completed outs elapsed =>
    obtain ⟨h1, h2, h3, _⟩ := foldl_applyOutcome outs ⟨false, [], [], 0, 0⟩
    simp only [migrate, traceOutcomes, h1, h2, h3]
    refine ⟨?_, by simp, by simp⟩
    simp [List.length_eq_zero]
  | fatal outs e =>
    obtain ⟨h1, h2, h3, h4⟩ := foldl_applyOutcome outs ⟨false, [], [], 0, 0⟩
    simp only [migrate, traceOutcomes, h1, h2, h3, h4]
    refine ⟨?_, by simp, by simp⟩
    constructor
    · intro hs
      exact absurd hs (by simp)
    · intro he
      exact absurd he (by simp)

theorem insertDocumentsWithMapping_no_valid (pgSchema : PostgresTableSchema)
    (documents : List JSValue) (columnMappings : List ColumnMapping)
    (h : columnMappings.filter (fun mapping =>
      (pgSchema.columns.map (fun col => col.name)).contains mapping.postgresColumn) = []) :
    insertDocumentsWithMapping pgSchema documents columnMappings = [] := by
  simp only [insertDocumentsWithMapping]
  split
  · rfl
  · rw [h]
    simp

theorem effectiveBatchSize_pos (b : Option Nat) : 1 ≤ effectiveBatchSize b := by
  cases b with
  | none => simp [effectiveBatchSize]
  | some n =>
    simp only [effectiveBatchSize]
    split <;> omega

theorem fetchLoop_count (docs : List JSValue) (b : Nat)
    (write : List JSValue → List (List (String × CellValue))) (hb : 1 ≤ b) :
    ∀ (fuel skip : Nat), docs.length - skip ≤ fuel →
      (fetchLoop docs b write skip fuel).2 = docs.length - skip := by
  intro fuel
  induction fuel with
  | zero =>
    intro skip hs
    simp only [fetchLoop]
    omega
  | succ fuel ih =>
    intro skip hs
    simp only [fetchLoop]
    split
    · next hlt =>
      have hlen : ((docs.drop skip).take b).length = min b (docs.length - skip) := by
        simp [List.length_take, List.length_drop]
      split
      · next hz =>
        rw [hlen] at hz
        omega
      · rw [ih (skip + b) (by omega), hlen]
        omega
    · next hge =>
      simp
      omega

theorem fetchLoop_rows_nil (docs : List JSValue) (b : Nat)
    (write : List JSValue → List (List (String × CellValue)))
    (hw : ∀ batch, write batch = []) :
    ∀ (fuel skip : Nat), (fetchLoop docs b write skip fuel).1 = [] := by
  intro fuel
  induction fuel with
  | zero => intro skip; rfl
  | succ fuel ih =>
    intro skip
    simp only [fetchLoop]
    split
    · split
      · rfl
      · rw [hw, ih (skip + b)]
        rfl
    · rfl

/-- C10: in pre-existing-tables mode, when validating the mappings against the
live destination schema leaves zero usable column mappings — so the batch
insert writes no rows at all — the orchestrator still appends the collection's
name to `migratedCollections` and still adds the fetched documents' count to
`totalDocuments`, exactly as for a successfully copied collection. -/
theorem migrateCollectionToExistingTable_zero_mappings
    (mongoName : String) (pgSchema : PostgresTableSchema) (docs : List JSValue)
    (batchSize : Option Nat) (columnMappings : List ColumnMapping)
    (result : MigrationResult)
    (hvalid : columnMappings.filter (fun mapping =>
      (pgSchema.columns.map (fun col => col.name)).contains mapping.postgresColumn) = []) :
    (migrateCollectionToExistingTable mongoName pgSchema docs batchSize
        columnMappings result).2 = [] ∧
    (migrateCollectionToExistingTable mongoName pgSchema docs batchSize
        columnMappings result).1.migratedCollections
      = result.migratedCollections ++ [mongoName] ∧
    (migrateCollectionToExistingTable mongoName pgSchema docs batchSize
        columnMappings result).1.totalDocuments
      = result.totalDocuments + docs.length := by
  have hw : ∀ batch, insertDocumentsWithMapping pgSchema batch columnMappings = [] :=
    fun batch => insertDocumentsWithMapping_no_valid pgSchema batch columnMappings hvalid
  refine ⟨?_, ?_, ?_⟩
  · exact fetchLoop_rows_nil docs _ _ hw (docs.length + 1) 0
  · rfl
  · show result.totalDocuments +
      (fetchLoop docs (effectiveBatchSize batchSize) _ 0 (docs.length + 1)).2
        = result.totalDocuments + docs.length
    rw [fetchLoop_count docs _ _ (effectiveBatchSize_pos batchSize) (docs.length + 1) 0
      (by omega)]
    omega

/-- Witness for C10: one document, one mapping whose destination column does
not exist — nothing is written and the result still counts the collection and
its document. -/
theorem migrateCollectionToExistingTable_zero_mappings_witness :
    (migrateCollectionToExistingTable "users" ⟨"users", [⟨"x", "TEXT", true, false, false⟩]⟩
        [JSValue.vobject [] ""] none [⟨"_id", "y"⟩] ⟨false, [], [], 0, 0⟩).2 = [] ∧
    (migrateCollectionToExistingTable "users" ⟨"users", [⟨"x", "TEXT", true, false, false⟩]⟩
        [JSValue.vobject [] ""] none [⟨"_id", "y"⟩] ⟨false, [], [], 0, 0⟩).1.migratedCollections
      = ([] : List String) ++ ["users"] ∧
    (migrateCollectionToExistingTable "users" ⟨"users", [⟨"x", "TEXT", true, false, false⟩]⟩
        [JSValue.vobject [] ""] none [⟨"_id", "y"⟩] ⟨false, [], [], 0, 0⟩).1.totalDocuments
      = 0 + 1 :=
  migrateCollectionToExistingTable_zero_mappings "users"
    ⟨"users", [⟨"x", "TEXT", true, false, false⟩]⟩ [JSValue.vobject [] ""] none
    [⟨"_id", "y"⟩] ⟨false, [], [], 0, 0⟩ (by rfl)

/-! #### Association-list and queue-step facts for the dependency resolver -/

theorem mapGet_mapSet {α : Type} (m : List (String × α)) (k : String) (v : α) (k' : String) :
    mapGet (mapSet m k v) k' = if k' = k then some v else mapGet m k' := by
  induction m with
  | nil =>
    show mapGet [(k, v)] k' = if k' = k then some v else mapGet [] k'
    rw [mapGet_cons]
    by_cases hk : k' = k
    · simp [hk]
    · have h1 : ¬(k = k') := fun he => hk he.symm
      simp [hk, h1, mapGet]
  | cons p ps ih =>
    unfold mapSet
    split
    · next hp =>
      subst hp
      rw [mapGet_cons, mapGet_cons]
      by_cases hk : k' = p.1
      · simp [hk]
      · have h1 : ¬(p.1 = k') := fun he => hk he.symm
        simp [hk, h1]
    · next hp =>
      rw [mapGet_cons, mapGet_cons, ih]
      by_cases hk : p.1 = k'
      · have h66 : ¬(k' = k) := fun he => hp (by rw [hk, he])
        simp [hk, h66]
      · simp [hk]

theorem mapGet_isSome_iff {α : Type} (m : List (String × α)) (k : String) :
    (mapGet m k).isSome = true ↔ k ∈ keysOf m := by
  induction m with
  | nil => simp [mapGet, keysOf]
  | cons p ps ih =>
    rw [mapGet_cons]
    by_cases hp : p.1 = k
    · simp [hp, keysOf]
    · rw [if_neg hp]
      simp only [keysOf, List.map_cons, List.mem_cons]
      rw [ih]
      constructor
      · exact fun h => Or.inr (by simpa [keysOf] using h)
      · rintro (h | h)
        · exact absurd h.symm hp
        · simpa [keysOf] using h

theorem keysOf_mapSet {α : Type} (m : List (String × α)) (k : String) (v : α) :
    keysOf (mapSet m k v) = if k ∈ keysOf m then keysOf m else keysOf m ++ [k] := by
  induction m with
  | nil => simp [mapSet, keysOf]
  | cons p ps ih =>
    unfold mapSet
    split
    · next hp =>
      subst hp
      simp [keysOf]
    · next hp =>
      simp only [keysOf, List.map_cons] at ih ⊢
      rw [ih]
      by_cases hk : k ∈ ps.map Prod.fst
      · rw [if_pos hk, if_pos (by simp [hk])]
      · have h2 : ¬(k ∈ p.1 :: List.map Prod.fst ps) := by
          simp only [List.mem_cons]
          rintro (he | he)
          · exact hp he.symm
          · exact hk he
        rw [if_neg hk, if_neg h2]
        simp

theorem mapGet_of_mem_nodup {α : Type} {m : List (String × α)} {k : String} {v : α}
    (hmem : (k, v) ∈ m) (hnd : (keysOf m).Nodup) : mapGet m k = some v := by
  induction m with
  | nil => simp at hmem
  | cons p ps ih =>
    rw [mapGet_cons]
    rcases List.mem_cons.mp hmem with rfl | hmem2
    · simp
    · have hk : p.1 ≠ k := by
        intro he
        simp only [keysOf, List.map_cons, List.nodup_cons, he] at hnd
        exact hnd.1 (by simp only [List.mem_map]; exact ⟨(k, v), hmem2, rfl⟩)
      rw [if_neg hk]
      refine ih hmem2 ?_
      simp only [keysOf, List.map_cons, List.nodup_cons] at hnd
      exact hnd.2

theorem mem_of_mapGet {α : Type} {m : List (String × α)} {k : String} {v : α}
    (h : mapGet m k = some v) : (k, v) ∈ m := by
  induction m with
  | nil => simp [mapGet] at h
  | cons p ps ih =>
    rw [mapGet_cons] at h
    split at h
    · next hp =>
      obtain ⟨rfl⟩ := h
      obtain ⟨k0, v0⟩ := p
      simp only [List.mem_cons]
      left
      simp only at hp
      rw [hp]
    · exact List.mem_cons_of_mem _ (ih h)

theorem mem_setAdd (s : List String) (x y : String) :
    y ∈ setAdd s x ↔ y ∈ s ∨ y = x := by
  unfold setAdd
  split
  · next hx =>
    constructor
    · exact Or.inl
    · rintro (h | rfl)
      · exact h
      · exact hx
  · simp

theorem setAdd_nodup {s : List String} (h : s.Nodup) (x : String) : (setAdd s x).Nodup := by
  unfold setAdd
  split
  · exact h
  · next hx =>
    refine List.Nodup.append h (List.nodup_singleton x) ?_
    intro a ha hax
    rw [List.mem_singleton] at hax
    exact hx (hax ▸ ha)

theorem degSum_cons (k : String) (v : Int) (d : DegMap) :
    degSum ((k, v) :: d) = v.toNat + degSum d := by
  simp [degSum]

theorem degSum_mapSet (d : DegMap) (k : String) (v : Int) :
    degSum (mapSet d k v) + ((mapGet d k).getD 0).toNat = degSum d + v.toNat := by
  induction d with
  | nil =>
    show degSum [(k, v)] + ((none : Option Int).getD 0).toNat = degSum [] + v.toNat
    simp [degSum]
  | cons p ps ih =>
    unfold mapSet
    split
    · next hp =>
      subst hp
      obtain ⟨k0, v0⟩ := p
      simp only [mapGet_cons, degSum_cons]
      simp only [if_true, ite_true, Option.getD_some]
      omega
    · next hp =>
      obtain ⟨k0, v0⟩ := p
      rw [mapGet_cons]
      simp only at hp
      rw [if_neg hp, degSum_cons, degSum_cons]
      omega

theorem stepNeighbor_measure (q : List String) (d : DegMap) (n : String) :
    (stepNeighbor (q, d) n).1.length + degSum (stepNeighbor (q, d) n).2
      ≤ q.length + degSum d := by
  have hds := degSum_mapSet d n (degOf d n - 1)
  simp only [degOf] at hds
  simp only [stepNeighbor, degOf]
  split
  · next hz =>
    dsimp only at hz ⊢
    simp only [List.length_append, List.length_cons, List.length_nil]
    omega
  · next hz =>
    dsimp only at hz ⊢
    omega

theorem foldl_stepNeighbor_measure (ns : List String) :
    ∀ (q : List String) (d : DegMap),
      (ns.foldl stepNeighbor (q, d)).1.length + degSum (ns.foldl stepNeighbor (q, d)).2
        ≤ q.length + degSum d := by
  induction ns with
  | nil => intro q d; simp
  | cons n rest ih =>
    intro q d
    rw [List.foldl_cons]
    calc ((rest.foldl stepNeighbor (stepNeighbor (q, d) n)).1.length
            + degSum (rest.foldl stepNeighbor (stepNeighbor (q, d) n)).2)
        ≤ (stepNeighbor (q, d) n).1.length + degSum (stepNeighbor (q, d) n).2 := by
          have := ih (stepNeighbor (q, d) n).1 (stepNeighbor (q, d) n).2
          simpa using this
      _ ≤ q.length + degSum d := stepNeighbor_measure q d n

theorem stepNeighbor_eq (q : List String) (d : DegMap) (n : String) :
    stepNeighbor (q, d) n
      = (if degOf d n = 1 then q ++ [n] else q, mapSet d n (degOf d n - 1)) := by
  simp only [stepNeighbor]
  by_cases h : degOf d n = 1
  · rw [if_pos (by omega), if_pos h]
  · rw [if_neg (by omega), if_neg h]

theorem degOf_mapSet (d : DegMap) (n : String) (x : Int) (u : String) :
    degOf (mapSet d n x) u = if u = n then x else degOf d u := by
  simp only [degOf, mapGet_mapSet]
  split <;> simp

theorem adjOf_mapSet (g : AdjMap) (n : String) (x : List String) (u : String) :
    adjOf (mapSet g n x) u = if u = n then x else adjOf g u := by
  simp only [adjOf, mapGet_mapSet]
  split <;> simp

theorem foldl_stepNeighbor_spec (ns : List String) :
    ∀ (q : List String) (d : DegMap), ns.Nodup → (∀ n ∈ ns, n ∈ keysOf d) →
    (∀ u, degOf (ns.foldl stepNeighbor (q, d)).2 u
        = degOf d u - (if u ∈ ns then 1 else 0)) ∧
    (ns.foldl stepNeighbor (q, d)).1
        = q ++ ns.filter (fun u => decide (degOf d u = 1)) ∧
    keysOf (ns.foldl stepNeighbor (q, d)).2 = keysOf d := by
  induction ns with
  | nil => intro q d _ _; simp
  | cons n rest ih =>
    intro q d hnd hsub
    rw [List.foldl_cons, stepNeighbor_eq]
    have hnmem : n ∉ rest := (List.nodup_cons.mp hnd).1
    have hkeys' : keysOf (mapSet d n (degOf d n - 1)) = keysOf d := by
      rw [keysOf_mapSet, if_pos (hsub n (List.mem_cons_self n rest))]
    obtain ⟨ihdeg, ihq, ihkeys⟩ :=
      ih (if degOf d n = 1 then q ++ [n] else q) (mapSet d n (degOf d n - 1))
        (List.nodup_cons.mp hnd).2
        (fun m hm => by rw [hkeys']; exact hsub m (List.mem_cons_of_mem n hm))
    refine ⟨?_, ?_, by rw [ihkeys, hkeys']⟩
    · intro u
      rw [ihdeg u, degOf_mapSet]
      by_cases hu : u = n
      · subst hu
        simp [hnmem]
      · simp [hu, List.mem_cons]
    · rw [ihq]
      have hfc : rest.filter (fun u => decide (degOf (mapSet d n (degOf d n - 1)) u = 1))
          = rest.filter (fun u => decide (degOf d u = 1)) := by
        refine List.filter_congr ?_
        intro u hu
        have hun : ¬(u = n) := fun he => hnmem (he ▸ hu)
        rw [degOf_mapSet, if_neg hun]
      rw [hfc, List.filter_cons]
      by_cases hdn : degOf d n = 1
      · rw [if_pos hdn, if_pos (by simp [hdn])]
        simp
      · rw [if_neg hdn, if_neg (by simp [hdn])]

theorem kahnLoop_cons (g : AdjMap) (fuel : Nat) (t : String) (rest : List String)
    (d : DegMap) :
    kahnLoop g (fuel + 1) (t :: rest) d
      = t :: kahnLoop g fuel ((adjOf g t).foldl stepNeighbor (rest, d)).1
          ((adjOf g t).foldl stepNeighbor (rest, d)).2 := rfl

theorem kahnLoop_inv (g : AdjMap) (K : List String)
    (hadjnd : ∀ t, (adjOf g t).Nodup)
    (hadjK : ∀ t x, x ∈ adjOf g t → x ∈ K) :
    ∀ (fuel : Nat) (q : List String) (d : DegMap),
      q.length + degSum d ≤ fuel →
      keysOf d = K →
      q.Nodup →
      (∀ u ∈ q, u ∈ K) →
      (∀ u ∈ q, degOf d u ≤ 0) →
      (kahnLoop g fuel q d).Nodup ∧
      (∀ x ∈ kahnLoop g fuel q d, x ∈ K) ∧
      (∀ x ∈ kahnLoop g fuel q d, x ∈ q ∨ 1 ≤ degOf d x) := by
  intro fuel
  induction fuel with
  | zero =>
    intro q d hfuel _ _ _ _
    have hq : q = [] := by
      cases q with
      | nil => rfl
      | cons a as => simp at hfuel
    subst hq
    simp [kahnLoop]
  | succ fuel ih =>
    intro q d hfuel hkeys hqnd hqK hqdeg
    cases q with
    | nil => simp [kahnLoop]
    | cons t rest =>
      rw [kahnLoop_cons]
      obtain ⟨hdeg, hq1, hkeys1⟩ :=
        foldl_stepNeighbor_spec (adjOf g t) rest d (hadjnd t)
          (fun n hn => by rw [hkeys]; exact hadjK t n hn)
      have hmeas := foldl_stepNeighbor_measure (adjOf g t) rest d
      have htrest : t ∉ rest := (List.nodup_cons.mp hqnd).1
      have hrestnd : rest.Nodup := (List.nodup_cons.mp hqnd).2
      have hq1nd : ((adjOf g t).foldl stepNeighbor (rest, d)).1.Nodup := by
        rw [hq1]
        refine List.Nodup.append hrestnd ((hadjnd t).filter _) ?_
        intro u hu huf
        have h0 : degOf d u ≤ 0 := hqdeg u (List.mem_cons_of_mem t hu)
        have h1 : degOf d u = 1 := by
          have := List.of_mem_filter huf
          simpa using this
        omega
      have hq1K : ∀ u ∈ ((adjOf g t).foldl stepNeighbor (rest, d)).1, u ∈ K := by
        rw [hq1]
        intro u hu
        rcases List.mem_append.mp hu with h | h
        · exact hqK u (List.mem_cons_of_mem t h)
        · exact hadjK t u (List.mem_of_mem_filter h)
      have hq1deg : ∀ u ∈ ((adjOf g t).foldl stepNeighbor (rest, d)).1,
          degOf ((adjOf g t).foldl stepNeighbor (rest, d)).2 u ≤ 0 := by
        rw [hq1]
        intro u hu
        rw [hdeg u]
        rcases List.mem_append.mp hu with h | h
        · have := hqdeg u (List.mem_cons_of_mem t h)
          split <;> omega
        · have h1 : degOf d u = 1 := by
            have := List.of_mem_filter h
            simpa using this
          rw [if_pos (List.mem_of_mem_filter h)]
          omega
      obtain ⟨ihnd, ihK, ihq⟩ :=
        ih ((adjOf g t).foldl stepNeighbor (rest, d)).1
          ((adjOf g t).foldl stepNeighbor (rest, d)).2
          (by have : (t :: rest).length + degSum d ≤ fuel + 1 := hfuel
              simp only [List.length_cons] at this
              omega)
          (by rw [hkeys1, hkeys]) hq1nd hq1K hq1deg
      have htR : t ∉ kahnLoop g fuel ((adjOf g t).foldl stepNeighbor (rest, d)).1
          ((adjOf g t).foldl stepNeighbor (rest, d)).2 := by
        intro hmem
        have hdt : degOf d t ≤ 0 := hqdeg t (List.mem_cons_self t rest)
        rcases ihq t hmem with h | h
        · rw [hq1] at h
          rcases List.mem_append.mp h with h | h
          · exact htrest h
          · have h1 : degOf d t = 1 := by
              have := List.of_mem_filter h
              simpa using this
            omega
        · rw [hdeg t] at h
          split at h <;> omega
      refine ⟨List.nodup_cons.mpr ⟨htR, ihnd⟩, ?_, ?_⟩
      · intro x hx
        rcases List.mem_cons.mp hx with rfl | hx2
        · exact hqK x (List.mem_cons_self x rest)
        · exact ihK x hx2
      · intro x hx
        rcases List.mem_cons.mp hx with rfl | hx2
        · exact Or.inl (List.mem_cons_self x rest)
        · rcases ihq x hx2 with h | h
          · rw [hq1] at h
            rcases List.mem_append.mp h with h | h
            · exact Or.inl (List.mem_cons_of_mem t h)
            · have h1 : degOf d x = 1 := by
                have := List.of_mem_filter h
                simpa using this
              omega
          · rw [hdeg x] at h
            split at h <;> omega

theorem initTables_fold_adj (ts : List String) :
    ∀ (g : AdjMap) (d : DegMap), (∀ t, adjOf g t = []) →
    ∀ t, adjOf ((ts.foldl (fun gd t => (mapSet gd.1 t [], mapSet gd.2 t 0)) (g, d)).1) t
        = [] := by
  induction ts with
  | nil => intro g d hg t; simpa using hg t
  | cons a as ih =>
    intro g d hg t
    rw [List.foldl_cons]
    refine ih (mapSet g a []) (mapSet d a 0) ?_ t
    intro u
    rw [adjOf_mapSet]
    split
    · rfl
    · exact hg u

theorem initTables_fold_deg (ts : List String) :
    ∀ (g : AdjMap) (d : DegMap), (∀ t, degOf d t = 0) →
    ∀ t, degOf ((ts.foldl (fun gd t => (mapSet gd.1 t [], mapSet gd.2 t 0)) (g, d)).2) t
        = 0 := by
  induction ts with
  | nil => intro g d hd t; simpa using hd t
  | cons a as ih =>
    intro g d hd t
    rw [List.foldl_cons]
    refine ih (mapSet g a []) (mapSet d a 0) ?_ t
    intro u
    rw [degOf_mapSet]
    split
    · rfl
    · exact hd u

theorem initTables_fold_keys (ts : List String) :
    ∀ (g : AdjMap) (d : DegMap), ts.Nodup →
    (∀ t ∈ ts, t ∉ keysOf g) → (∀ t ∈ ts, t ∉ keysOf d) →
    keysOf ((ts.foldl (fun gd t => (mapSet gd.1 t [], mapSet gd.2 t 0)) (g, d)).1)
        = keysOf g ++ ts ∧
    keysOf ((ts.foldl (fun gd t => (mapSet gd.1 t [], mapSet gd.2 t 0)) (g, d)).2)
        = keysOf d ++ ts := by
  induction ts with
  | nil => intro g d _ _ _; simp
  | cons a as ih =>
    intro g d hnd hg hd
    rw [List.foldl_cons]
    have hga : a ∉ keysOf g := hg a (List.mem_cons_self a as)
    have hda : a ∉ keysOf d := hd a (List.mem_cons_self a as)
    have hkg : keysOf (mapSet g a ([] : List String)) = keysOf g ++ [a] := by
      rw [keysOf_mapSet, if_neg hga]
    have hkd : keysOf (mapSet d a (0 : Int)) = keysOf d ++ [a] := by
      rw [keysOf_mapSet, if_neg hda]
    obtain ⟨h1, h2⟩ := ih (mapSet g a []) (mapSet d a 0) (List.nodup_cons.mp hnd).2
      (fun t ht => by
        rw [hkg]
        simp only [List.mem_append, List.mem_singleton]
        rintro (h | rfl)
        · exact hg t (List.mem_cons_of_mem a ht) h
        · exact (List.nodup_cons.mp hnd).1 ht)
      (fun t ht => by
        rw [hkd]
        simp only [List.mem_append, List.mem_singleton]
        rintro (h | rfl)
        · exact hd t (List.mem_cons_of_mem a ht) h
        · exact (List.nodup_cons.mp hnd).1 ht)
    constructor
    · rw [h1, hkg, List.append_assoc]
      rfl
    · rw [h2, hkd, List.append_assoc]
      rfl

theorem initTables_keys (tables : List String) (hnd : tables.Nodup) :
    keysOf (initTables tables).1 = tables ∧ keysOf (initTables tables).2 = tables := by
  have := initTables_fold_keys tables [] [] hnd (by simp [keysOf]) (by simp [keysOf])
  simpa [initTables, keysOf] using this

theorem initTables_adj (tables : List String) (t : String) :
    adjOf (initTables tables).1 t = [] :=
  initTables_fold_adj tables [] [] (fun u => by simp [adjOf, mapGet]) t

theorem initTables_deg (tables : List String) (t : String) :
    degOf (initTables tables).2 t = 0 :=
  initTables_fold_deg tables [] [] (fun u => by simp [degOf, mapGet]) t

theorem addRelationship_inv (K : List String) (g : AdjMap) (d : DegMap)
    (rel : TableRelationship)
    (hkg : keysOf g = K) (hkd : keysOf d = K)
    (hand : ∀ t, (adjOf g t).Nodup) (hsub : ∀ t x, x ∈ adjOf g t → x ∈ K) :
    keysOf (addRelationship (g, d) rel).1 = K ∧
    keysOf (addRelationship (g, d) rel).2 = K ∧
    (∀ t, (adjOf (addRelationship (g, d) rel).1 t).Nodup) ∧
    (∀ t x, x ∈ adjOf (addRelationship (g, d) rel).1 t → x ∈ K) := by
  unfold addRelationship
  split
  · next hguard =>
    obtain ⟨hg1, hg2⟩ := hguard
    have htabK : rel.tableName ∈ K := by
      rw [← hkg]
      exact (mapGet_isSome_iff g rel.tableName).mp hg1
    have hrefK : rel.referencedTable ∈ K := by
      rw [← hkg]
      exact (mapGet_isSome_iff g rel.referencedTable).mp hg2
    refine ⟨?_, ?_, ?_, ?_⟩
    · show keysOf (mapSet g rel.referencedTable _) = K
      rw [keysOf_mapSet, if_pos (by rw [hkg]; exact hrefK), hkg]
    · show keysOf (mapSet d rel.tableName _) = K
      rw [keysOf_mapSet, if_pos (by rw [hkd]; exact htabK), hkd]
    · intro t
      show (adjOf (mapSet g rel.referencedTable _) t).Nodup
      rw [adjOf_mapSet]
      split
      · exact setAdd_nodup (hand rel.referencedTable) _
      · exact hand t
    · intro t x hx
      simp only [adjOf_mapSet] at hx
      split at hx
      · rcases (mem_setAdd _ _ _).mp hx with h | rfl
        · exact hsub rel.referencedTable x h
        · exact htabK
      · exact hsub t x hx
  · exact ⟨hkg, hkd, hand, hsub⟩

theorem foldl_addRelationship_inv (rels : List TableRelationship) (K : List String) :
    ∀ (g : AdjMap) (d : DegMap),
    keysOf g = K → keysOf d = K →
    (∀ t, (adjOf g t).Nodup) → (∀ t x, x ∈ adjOf g t → x ∈ K) →
    keysOf (rels.foldl addRelationship (g, d)).1 = K ∧
    keysOf (rels.foldl addRelationship (g, d)).2 = K ∧
    (∀ t, (adjOf (rels.foldl addRelationship (g, d)).1 t).Nodup) ∧
    (∀ t x, x ∈ adjOf (rels.foldl addRelationship (g, d)).1 t → x ∈ K) := by
  induction rels with
  | nil => intro g d h1 h2 h3 h4; exact ⟨h1, h2, h3, h4⟩
  | cons r rs ih =>
    intro g d h1 h2 h3 h4
    rw [List.foldl_cons]
    obtain ⟨a1, a2, a3, a4⟩ := addRelationship_inv K g d r h1 h2 h3 h4
    have hpair : addRelationship (g, d) r
        = ((addRelationship (g, d) r).1, (addRelationship (g, d) r).2) := rfl
    rw [hpair]
    exact ih _ _ a1 a2 a3 a4

theorem buildState_inv (tables : List String) (rels : List TableRelationship)
    (hnd : tables.Nodup) :
    keysOf (buildState tables rels).1 = tables ∧
    keysOf (buildState tables rels).2 = tables ∧
    (∀ t, (adjOf (buildState tables rels).1 t).Nodup) ∧
    (∀ t x, x ∈ adjOf (buildState tables rels).1 t → x ∈ tables) := by
  unfold buildState
  have hinit := initTables_keys tables hnd
  have hpair : initTables tables = ((initTables tables).1, (initTables tables).2) := rfl
  rw [hpair]
  exact foldl_addRelationship_inv rels tables _ _ hinit.1 hinit.2
    (fun t => by rw [initTables_adj]; exact List.nodup_nil)
    (fun t x hx => by rw [initTables_adj] at hx; simp at hx)

theorem initialQueue_eq_aux (d : DegMap) :
    ∀ (acc : List String),
      d.foldl (fun q p => if p.2 = 0 then q ++ [p.1] else q) acc
        = acc ++ (d.filter (fun p => decide (p.2 = 0))).map Prod.fst := by
  induction d with
  | nil => intro acc; simp
  | cons p ps ih =>
    intro acc
    rw [List.foldl_cons, List.filter_cons]
    by_cases hp : p.2 = 0
    · rw [if_pos hp, if_pos (by simp [hp]), ih]
      simp
    · rw [if_neg hp, if_neg (by simp [hp]), ih]

theorem initialQueue_eq (d : DegMap) :
    initialQueue d = (d.filter (fun p => decide (p.2 = 0))).map Prod.fst := by
  unfold initialQueue
  rw [initialQueue_eq_aux d []]
  simp

theorem initialQueue_nodup {d : DegMap} (hnd : (keysOf d).Nodup) :
    (initialQueue d).Nodup := by
  rw [initialQueue_eq]
  exact List.Nodup.sublist (List.Sublist.map Prod.fst (List.filter_sublist d)) hnd

theorem initialQueue_mem {d : DegMap} {u : String} (hu : u ∈ initialQueue d) :
    u ∈ keysOf d ∧ ∃ v, (u, v) ∈ d ∧ v = 0 := by
  rw [initialQueue_eq] at hu
  simp only [List.mem_map, List.mem_filter] at hu
  obtain ⟨p, ⟨hpd, hp0⟩, hfst⟩ := hu
  refine ⟨?_, p.2, ?_, by simpa using hp0⟩
  · simp only [keysOf, List.mem_map]
    exact ⟨p, hpd, hfst⟩
  · rw [← hfst]
    exact hpd

theorem initialQueue_deg {d : DegMap} (hnd : (keysOf d).Nodup) {u : String}
    (hu : u ∈ initialQueue d) : degOf d u = 0 := by
  obtain ⟨-, v, hv, rfl⟩ := initialQueue_mem hu
  simp [degOf, mapGet_of_mem_nodup hv hnd]

theorem perm_append_missing {R tables : List String} (hRnd : R.Nodup)
    (hnd : tables.Nodup) (hRK : ∀ x ∈ R, x ∈ tables) :
    (if R.length ≠ tables.length then R ++ tables.filter (fun t => decide (t ∉ R))
     else R).Perm tables := by
  split
  · next hlen =>
    refine List.perm_of_nodup_nodup_toFinset_eq ?_ hnd ?_
    · refine List.Nodup.append hRnd (hnd.filter _) ?_
      intro a ha haf
      have := List.of_mem_filter haf
      simp only [decide_eq_true_eq] at this
      exact this ha
    · ext x
      simp only [List.mem_toFinset, List.mem_append, List.mem_filter,
        decide_eq_true_eq]
      constructor
      · rintro (h | h)
        · exact hRK x h
        · exact h.1
      · intro hx
        by_cases hxR : x ∈ R
        · exact Or.inl hxR
        · exact Or.inr ⟨hx, hxR⟩
  · next hlen =>
    have hlen' : R.length = tables.length := not_ne_iff.mp hlen
    have hsub : R.toFinset ⊆ tables.toFinset := by
      intro x hx
      rw [List.mem_toFinset] at hx ⊢
      exact hRK x hx
    have h1 := List.toFinset_card_of_nodup hRnd
    have h2 := List.toFinset_card_of_nodup hnd
    exact List.perm_of_nodup_nodup_toFinset_eq hRnd hnd
      (Finset.eq_of_subset_of_card_le hsub (by omega))

/-- C1: for every list of distinct table names and every relationship list,
`getInsertionOrder` returns a permutation of the input table names — same
length, no additions, no omissions — whatever cycles or dangling references
the relationships contain.  (The embedding is a total function, so the "never
raises" part is intrinsic: every input reaches the return expression.) -/
theorem getInsertionOrder_perm (tables : List String)
    (relationships : List TableRelationship) (hnd : tables.Nodup) :
    (getInsertionOrder tables relationships).Perm tables := by
  obtain ⟨hkg, hkd, hadjnd, hadjK⟩ := buildState_inv tables relationships hnd
  have hkdnd : (keysOf (buildState tables relationships).2).Nodup := by
    rw [hkd]; exact hnd
  have hqnd : (initialQueue (buildState tables relationships).2).Nodup :=
    initialQueue_nodup hkdnd
  have hqK : ∀ u ∈ initialQueue (buildState tables relationships).2, u ∈ tables := by
    intro u hu
    have := (initialQueue_mem hu).1
    rwa [hkd] at this
  have hqdeg : ∀ u ∈ initialQueue (buildState tables relationships).2,
      degOf (buildState tables relationships).2 u ≤ 0 := by
    intro u hu
    rw [initialQueue_deg hkdnd hu]
  obtain ⟨hRnd, hRK, -⟩ := kahnLoop_inv (buildState tables relationships).1 tables
    hadjnd hadjK
    ((initialQueue (buildState tables relationships).2).length
      + degSum (buildState tables relationships).2)
    (initialQueue (buildState tables relationships).2)
    (buildState tables relationships).2
    (le_refl _) hkd hqnd hqK hqdeg
  simp only [getInsertionOrder]
  exact perm_append_missing hRnd hnd hRK

theorem getInsertionOrder_perm_witness :
    (getInsertionOrder ["table_a", "table_b"]
      [⟨"table_a", "table_b", "b_id", "id"⟩, ⟨"table_b", "table_a", "a_id", "id"⟩]).Perm
      ["table_a", "table_b"] :=
  getInsertionOrder_perm ["table_a", "table_b"]
    [⟨"table_a", "table_b", "b_id", "id"⟩, ⟨"table_b", "table_a", "a_id", "id"⟩]
    (by decide)

theorem filter_map_deg (d : DegMap) (hnd : (keysOf d).Nodup) :
    (d.filter (fun p => decide (p.2 = 0))).map Prod.fst
      = (keysOf d).filter (fun t => decide (degOf d t = 0)) := by
  induction d with
  | nil => simp [keysOf]
  | cons p ps ih =>
    obtain ⟨k, v⟩ := p
    simp only [keysOf, List.map_cons, List.nodup_cons] at hnd
    have hcong : (List.map Prod.fst ps).filter
        (fun t => decide (degOf ((k, v) :: ps) t = 0))
        = (List.map Prod.fst ps).filter (fun t => decide (degOf ps t = 0)) := by
      refine List.filter_congr ?_
      intro t ht
      have htk : ¬((k, v).1 = t) := fun he => hnd.1 (by rw [← he] at ht; exact ht)
      simp only [degOf, mapGet_cons, if_neg htk]
    have hih := ih hnd.2
    simp only [keysOf] at hih
    show (((k, v) :: ps).filter (fun p => decide (p.2 = 0))).map Prod.fst
        = (k :: List.map Prod.fst ps).filter
            (fun t => decide (degOf ((k, v) :: ps) t = 0))
    rw [List.filter_cons, List.filter_cons]
    have hdk : degOf ((k, v) :: ps) k = v := by simp [degOf, mapGet_cons]
    by_cases hv : v = 0
    · rw [if_pos (by simp [hv]), if_pos (by simp [degOf, mapGet_cons, hv]),
        List.map_cons, hcong, hih]
    · rw [if_neg (by simp [hv]), if_neg (by simp [degOf, mapGet_cons, hv]), hcong, hih]

theorem foldl_stepNeighbor_queue (ns : List String) :
    ∀ (q : List String) (d : DegMap),
      ∃ app, (ns.foldl stepNeighbor (q, d)).1 = q ++ app := by
  induction ns with
  | nil => intro q d; exact ⟨[], by simp⟩
  | cons n rest ih =>
    intro q d
    rw [List.foldl_cons, stepNeighbor_eq]
    by_cases h : degOf d n = 1
    · rw [if_pos h]
      obtain ⟨app, happ⟩ := ih (q ++ [n]) (mapSet d n (degOf d n - 1))
      exact ⟨[n] ++ app, by rw [happ, List.append_assoc]⟩
    · rw [if_neg h]
      exact ih q _

theorem kahnLoop_queue_first (g : AdjMap) :
    ∀ (fuel : Nat) (q : List String) (d : DegMap),
      q.length + degSum d ≤ fuel →
      ∃ rest, kahnLoop g fuel q d = q ++ rest := by
  intro fuel
  induction fuel with
  | zero =>
    intro q d hf
    cases q with
    | nil => exact ⟨[], rfl⟩
    | cons a as => simp at hf
  | succ fuel ih =>
    intro q d hf
    cases q with
    | nil => exact ⟨[], rfl⟩
    | cons t rest =>
      rw [kahnLoop_cons]
      obtain ⟨app, happ⟩ := foldl_stepNeighbor_queue (adjOf g t) rest d
      have hm := foldl_stepNeighbor_measure (adjOf g t) rest d
      obtain ⟨rest2, hrest2⟩ := ih ((adjOf g t).foldl stepNeighbor (rest, d)).1
        ((adjOf g t).foldl stepNeighbor (rest, d)).2
        (by simp only [List.length_cons] at hf; omega)
      refine ⟨app ++ rest2, ?_⟩
      rw [hrest2, happ]
      simp [List.append_assoc]

/-- C3 counterexample: with tables in input order `a, b, c` and relationships
making `c` and `b` (in that relationship order) both depend on `a`, the tables
`b` and `c` become ready simultaneously after `a` is emitted, yet the result is
`a, c, b` — adjacency-set insertion order, not the input order `a, b, c`
promised by the claim. -/
theorem getInsertionOrder_tie_counterexample :
    getInsertionOrder ["a", "b", "c"]
        [⟨"c", "a", "x", "id"⟩, ⟨"b", "a", "y", "id"⟩] = ["a", "c", "b"] ∧
    decide ((["a", "c", "b"] : List String) = ["a", "b", "c"]) = false := by
  exact ⟨by decide, by decide⟩

/-- C3 (amended): what the code actually guarantees about emission order: the
seed queue lists the zero-in-degree tables in input-table order, and the
result emits that whole seed queue first, in that order.  Tables that become
ready later are enqueued in the processed table's adjacency-set insertion
order (relationship order), not input order. -/
theorem getInsertionOrder_seed_order (tables : List String)
    (relationships : List TableRelationship) (hnd : tables.Nodup) :
    initialQueue (buildState tables relationships).2
        = tables.filter
            (fun t => decide (degOf (buildState tables relationships).2 t = 0)) ∧
    ∃ rest, getInsertionOrder tables relationships
        = initialQueue (buildState tables relationships).2 ++ rest := by
  obtain ⟨hkg, hkd, -, -⟩ := buildState_inv tables relationships hnd
  constructor
  · rw [initialQueue_eq, filter_map_deg _ (by rw [hkd]; exact hnd), hkd]
  · obtain ⟨r, hr⟩ := kahnLoop_queue_first (buildState tables relationships).1
      ((initialQueue (buildState tables relationships).2).length
        + degSum (buildState tables relationships).2)
      (initialQueue (buildState tables relationships).2)
      (buildState tables relationships).2 (le_refl _)
    simp only [getInsertionOrder]
    rw [hr]
    split
    · exact ⟨r ++ List.filter
        (fun t => decide
          (t ∉ initialQueue (buildState tables relationships).2 ++ r)) tables,
        (List.append_assoc _ _ _)⟩
    · exact ⟨r, rfl⟩

theorem getInsertionOrder_seed_order_witness :
    (initialQueue (buildState ["a", "b", "c"] [⟨"c", "a", "x", "id"⟩]).2
        = ["a", "b", "c"].filter
            (fun t => decide
              (degOf (buildState ["a", "b", "c"] [⟨"c", "a", "x", "id"⟩]).2 t = 0))) ∧
    ∃ rest, getInsertionOrder ["a", "b", "c"] [⟨"c", "a", "x", "id"⟩]
        = initialQueue (buildState ["a", "b", "c"] [⟨"c", "a", "x", "id"⟩]).2 ++ rest :=
  getInsertionOrder_seed_order ["a", "b", "c"] [⟨"c", "a", "x", "id"⟩] (by decide)

theorem inCount_cons (e : String × String) (FP : List (String × String))
    (u : String) (P : List String) :
    inCount (e :: FP) u P
      = (if e.2 = u ∧ e.1 ∉ P then 1 else 0) + inCount FP u P := by
  simp only [inCount, List.filter_cons]
  by_cases h : e.2 = u ∧ e.1 ∉ P
  · rw [if_pos (by simp [h.1, h.2]), if_pos h]
    simp only [List.length_cons]
    push_cast
    ring
  · rw [if_neg (by simpa using h), if_neg h]
    simp

theorem inCount_nonneg (FP : List (String × String)) (u : String) (P : List String) :
    0 ≤ inCount FP u P := by
  simp [inCount]

theorem inCount_append (A B : List (String × String)) (u : String) (P : List String) :
    inCount (A ++ B) u P = inCount A u P + inCount B u P := by
  simp only [inCount, List.filter_append, List.length_append]
  push_cast
  ring

theorem inCount_pos (FP : List (String × String)) (u : String) (P : List String)
    (h : inCount FP u P ≠ 0) : ∃ e ∈ FP, e.2 = u ∧ e.1 ∉ P := by
  have hne : FP.filter (fun e => decide (e.2 = u) && decide (e.1 ∉ P)) ≠ [] := by
    intro hnil
    simp only [inCount] at h
    rw [hnil] at h
    simp at h
  obtain ⟨e, he⟩ := List.exists_mem_of_ne_nil _ hne
  have hm := List.mem_filter.mp he
  refine ⟨e, hm.1, ?_⟩
  have hb := hm.2
  simp only [Bool.and_eq_true, decide_eq_true_eq] at hb
  exact hb

theorem inCount_ge_one {FP : List (String × String)} {t u : String} {P : List String}
    (hmem : (t, u) ∈ FP) (htP : t ∉ P) : 1 ≤ inCount FP u P := by
  have hm : (t, u) ∈ FP.filter (fun e => decide (e.2 = u) && decide (e.1 ∉ P)) := by
    rw [List.mem_filter]
    exact ⟨hmem, by simp [htP]⟩
  have hlen := List.length_pos.mpr (List.ne_nil_of_mem hm)
  simp only [inCount]
  omega

theorem inCount_snoc (FP : List (String × String)) (u t : String) (P : List String)
    (hnd : FP.Nodup) (htP : t ∉ P) :
    inCount FP u (P ++ [t])
      = inCount FP u P - (if (t, u) ∈ FP then 1 else 0) := by
  induction FP with
  | nil => simp [inCount]
  | cons e FP' ih =>
    have he : e ∉ FP' := (List.nodup_cons.mp hnd).1
    have hih := ih (List.nodup_cons.mp hnd).2
    rw [inCount_cons, inCount_cons, hih]
    by_cases het : e = (t, u)
    · subst het
      rw [if_neg (show ¬((t, u).2 = u ∧ (t, u).1 ∉ P ++ [t]) from by simp),
          if_pos (show (t, u).2 = u ∧ (t, u).1 ∉ P from ⟨rfl, htP⟩),
          if_pos (List.mem_cons_self (t, u) FP'),
          if_neg he]
      omega
    · have hmem : ((t, u) ∈ e :: FP') ↔ ((t, u) ∈ FP') := by
        simp only [List.mem_cons]
        constructor
        · rintro (h | h)
          · exact absurd h.symm het
          · exact h
        · exact Or.inr
      have hcond : (e.2 = u ∧ e.1 ∉ P ++ [t]) ↔ (e.2 = u ∧ e.1 ∉ P) := by
        constructor
        · rintro ⟨h1, h2⟩
          exact ⟨h1, fun hp => h2 (List.mem_append.mpr (Or.inl hp))⟩
        · rintro ⟨h1, h2⟩
          refine ⟨h1, ?_⟩
          intro hmem2
          rcases List.mem_append.mp hmem2 with h | h
          · exact h2 h
          · rw [List.mem_singleton] at h
            refine het ?_
            obtain ⟨e1, e2⟩ := e
            simp only at h h1
            rw [h, h1]
      rw [if_congr hcond rfl rfl, if_congr hmem rfl rfl]
      omega

theorem wf_not_self {α : Type} {r : α → α → Prop} (hwf : WellFounded r) (a : α) :
    ¬ r a a := by
  intro h
  obtain ⟨m, hm, hmin⟩ := hwf.has_min {x | x = a} ⟨a, rfl⟩
  rw [Set.mem_setOf_eq] at hm
  subst hm
  exact hmin m rfl h

theorem kahn_complete (K : List String) (FP : List (String × String))
    (hFPK : ∀ e ∈ FP, e.1 ∈ K ∧ e.2 ∈ K)
    (hwf : WellFounded (fun a b : String => (a, b) ∈ FP))
    (P : List String) (d : DegMap)
    (hcount : ∀ u, degOf d u = inCount FP u P)
    (hzero : ∀ u ∈ K, degOf d u = 0 → u ∈ P) :
    ∀ u ∈ K, u ∈ P := by
  intro u huK
  by_contra huP
  obtain ⟨m, hmS, hmin⟩ := hwf.has_min {x | x ∈ K ∧ x ∉ P} ⟨u, huK, huP⟩
  obtain ⟨hmK, hmP⟩ := hmS
  have hdm : degOf d m ≠ 0 := fun h0 => hmP (hzero m hmK h0)
  rw [hcount m] at hdm
  obtain ⟨e, heFP, he2, he1⟩ := inCount_pos FP m P hdm
  refine hmin e.1 ⟨(hFPK e heFP).1, he1⟩ ?_
  show (e.1, m) ∈ FP
  rw [← he2, Prod.mk.eta]
  exact heFP

theorem kahnLoop_topo (g : AdjMap) (K : List String) (FP : List (String × String))
    (hadjnd : ∀ t, (adjOf g t).Nodup)
    (hadj : ∀ r t, t ∈ adjOf g r ↔ (r, t) ∈ FP)
    (hFPK : ∀ e ∈ FP, e.1 ∈ K ∧ e.2 ∈ K)
    (hFPnd : FP.Nodup)
    (hwf : WellFounded (fun a b : String => (a, b) ∈ FP)) :
    ∀ (fuel : Nat) (q : List String) (d : DegMap) (P : List String),
      q.length + degSum d ≤ fuel →
      keysOf d = K →
      (P ++ q).Nodup →
      (∀ u ∈ q, u ∈ K) →
      (∀ u, degOf d u = inCount FP u P) →
      (∀ u ∈ K, degOf d u = 0 → u ∈ P ∨ u ∈ q) →
      (∀ u ∈ P ++ q, degOf d u = 0) →
      (∀ e ∈ FP, e.2 ∈ P → ∃ p₁ p₂, P = p₁ ++ e.2 :: p₂ ∧ e.1 ∈ p₁) →
      (∀ u ∈ K, u ∈ P ++ kahnLoop g fuel q d) ∧
      (∀ e ∈ FP, e.2 ∈ P ++ kahnLoop g fuel q d →
        ∃ p₁ p₂, P ++ kahnLoop g fuel q d = p₁ ++ e.2 :: p₂ ∧ e.1 ∈ p₁) := by
  intro fuel
  induction fuel with
  | zero =>
    intro q d P hfuel hkeys hnodup hqK hcount hzero hdeg0 hord
    have hq : q = [] := by
      cases q with
      | nil => rfl
      | cons a as => simp at hfuel
    subst hq
    have hkl0 : kahnLoop g 0 [] d = [] := rfl
    refine ⟨?_, ?_⟩
    · intro u huK
      have := kahn_complete K FP hFPK hwf P d hcount
        (fun v hv h0 => (hzero v hv h0).resolve_right (by simp)) u huK
      rw [hkl0, List.append_nil]
      exact this
    · intro e heFP he2
      rw [hkl0, List.append_nil] at he2 ⊢
      exact hord e heFP he2
  | succ fuel ih =>
    intro q d P hfuel hkeys hnodup hqK hcount hzero hdeg0 hord
    cases q with
    | nil =>
      have hkl0 : kahnLoop g (fuel + 1) [] d = [] := rfl
      refine ⟨?_, ?_⟩
      · intro u huK
        have := kahn_complete K FP hFPK hwf P d hcount
          (fun v hv h0 => (hzero v hv h0).resolve_right (by simp)) u huK
        rw [hkl0, List.append_nil]
        exact this
      · intro e heFP he2
        rw [hkl0, List.append_nil] at he2 ⊢
        exact hord e heFP he2
    | cons t rest =>
      have hkl : kahnLoop g (fuel + 1) (t :: rest) d
          = t :: kahnLoop g fuel ((adjOf g t).foldl stepNeighbor (rest, d)).1
              ((adjOf g t).foldl stepNeighbor (rest, d)).2 := rfl
      obtain ⟨hdeg, hq1eq, hkeys1⟩ :=
        foldl_stepNeighbor_spec (adjOf g t) rest d (hadjnd t)
          (fun n hn => by rw [hkeys]; exact (hFPK (t, n) ((hadj t n).mp hn)).2)
      have hmeas := foldl_stepNeighbor_measure (adjOf g t) rest d
      have htq : t ∈ t :: rest := List.mem_cons_self t rest
      have hPnd : P.Nodup := (List.nodup_append.mp hnodup).1
      have hqnd : (t :: rest).Nodup := (List.nodup_append.mp hnodup).2.1
      have hdisj : ∀ a ∈ P, a ∉ t :: rest := (List.nodup_append.mp hnodup).2.2
      have htP : t ∉ P := fun hp => hdisj t hp htq
      have htrest : t ∉ rest := (List.nodup_cons.mp hqnd).1
      have hdeg0t : degOf d t = 0 := hdeg0 t (List.mem_append.mpr (Or.inr htq))
      have hnotns : ∀ u, degOf d u = 0 → u ∉ adjOf g t := by
        intro u h0 hu
        have h1 := inCount_ge_one ((hadj t u).mp hu) htP
        rw [hcount u] at h0
        omega
      have hcount' : ∀ u, degOf ((adjOf g t).foldl stepNeighbor (rest, d)).2 u
          = inCount FP u (P ++ [t]) := by
        intro u
        rw [hdeg u, inCount_snoc FP u t P hFPnd htP, hcount u]
        by_cases hu : u ∈ adjOf g t
        · rw [if_pos hu, if_pos ((hadj t u).mp hu)]
        · rw [if_neg hu, if_neg (fun hm => hu ((hadj t u).mpr hm))]
      have hfilmem : ∀ u ∈ (adjOf g t).filter (fun u => decide (degOf d u = 1)),
          u ∈ adjOf g t ∧ degOf d u = 1 := by
        intro u hu
        refine ⟨List.mem_of_mem_filter hu, ?_⟩
        have := List.of_mem_filter hu
        simpa using this
      have hdeg0' : ∀ u ∈ (P ++ [t]) ++ ((adjOf g t).foldl stepNeighbor (rest, d)).1,
          degOf ((adjOf g t).foldl stepNeighbor (rest, d)).2 u = 0 := by
        intro u hu
        rw [hdeg u]
        rw [hq1eq] at hu
        rcases List.mem_append.mp hu with hu | hu
        · rcases List.mem_append.mp hu with hu | hu
          · have h0 : degOf d u = 0 := hdeg0 u (List.mem_append.mpr (Or.inl hu))
            rw [if_neg (hnotns u h0)]
            omega
          · rw [List.mem_singleton] at hu
            subst hu
            rw [if_neg (hnotns u hdeg0t)]
            omega
        · rcases List.mem_append.mp hu with hu | hu
          · have h0 : degOf d u = 0 :=
              hdeg0 u (List.mem_append.mpr (Or.inr (List.mem_cons_of_mem t hu)))
            rw [if_neg (hnotns u h0)]
            omega
          · obtain ⟨hns, h1⟩ := hfilmem u hu
            rw [if_pos hns]
            omega
      have hnodup' : ((P ++ [t])
          ++ ((adjOf g t).foldl stepNeighbor (rest, d)).1).Nodup := by
        rw [hq1eq]
        have hbase : ((P ++ [t]) ++ rest).Nodup := by
          have hh := hnodup
          rw [show P ++ t :: rest = (P ++ [t]) ++ rest from by simp] at hh
          exact hh
        rw [show (P ++ [t])
              ++ (rest ++ (adjOf g t).filter (fun u => decide (degOf d u = 1)))
            = ((P ++ [t]) ++ rest)
              ++ (adjOf g t).filter (fun u => decide (degOf d u = 1))
          from by simp [List.append_assoc]]
        refine List.Nodup.append hbase ((hadjnd t).filter _) ?_
        intro a ha haf
        obtain ⟨hans, h1⟩ := hfilmem a haf
        have h0 : degOf d a = 0 := by
          rcases List.mem_append.mp ha with ha | ha
          · rcases List.mem_append.mp ha with ha | ha
            · exact hdeg0 a (List.mem_append.mpr (Or.inl ha))
            · rw [List.mem_singleton] at ha
              subst ha
              exact hdeg0t
          · exact hdeg0 a (List.mem_append.mpr (Or.inr (List.mem_cons_of_mem t ha)))
        omega
      have hq1K : ∀ u ∈ ((adjOf g t).foldl stepNeighbor (rest, d)).1, u ∈ K := by
        rw [hq1eq]
        intro u hu
        rcases List.mem_append.mp hu with hu | hu
        · exact hqK u (List.mem_cons_of_mem t hu)
        · exact (hFPK (t, u) ((hadj t u).mp (List.mem_of_mem_filter hu))).2
      have hzero' : ∀ u ∈ K,
          degOf ((adjOf g t).foldl stepNeighbor (rest, d)).2 u = 0 →
          u ∈ P ++ [t] ∨ u ∈ ((adjOf g t).foldl stepNeighbor (rest, d)).1 := by
        intro u huK h0
        rw [hdeg u] at h0
        by_cases hu : u ∈ adjOf g t
        · rw [if_pos hu] at h0
          right
          rw [hq1eq]
          refine List.mem_append.mpr (Or.inr ?_)
          refine List.mem_filter.mpr ⟨hu, ?_⟩
          simp only [decide_eq_true_eq]
          omega
        · rw [if_neg hu] at h0
          simp only [sub_zero] at h0
          rcases hzero u huK h0 with h | h
          · exact Or.inl (List.mem_append.mpr (Or.inl h))
          · rcases List.mem_cons.mp h with rfl | h
            · exact Or.inl (List.mem_append.mpr (Or.inr (List.mem_singleton.mpr rfl)))
            · right
              rw [hq1eq]
              exact List.mem_append.mpr (Or.inl h)
      have hord' : ∀ e ∈ FP, e.2 ∈ P ++ [t] →
          ∃ p₁ p₂, P ++ [t] = p₁ ++ e.2 :: p₂ ∧ e.1 ∈ p₁ := by
        intro e heFP he2
        rcases List.mem_append.mp he2 with he2 | he2
        · obtain ⟨p₁, p₂, hsplit, he1⟩ := hord e heFP he2
          exact ⟨p₁, p₂ ++ [t], by rw [hsplit]; simp, he1⟩
        · rw [List.mem_singleton] at he2
          have h0 : inCount FP t P = 0 := by
            rw [← hcount t]
            exact hdeg0t
          have he1P : e.1 ∈ P := by
            by_contra he1P
            have := inCount_ge_one (t := e.1) (u := t)
              (by rw [← he2, Prod.mk.eta]; exact heFP) he1P
            omega
          exact ⟨P, [], by rw [he2], he1P⟩
      have hfuel' : ((adjOf g t).foldl stepNeighbor (rest, d)).1.length
          + degSum ((adjOf g t).foldl stepNeighbor (rest, d)).2 ≤ fuel := by
        simp only [List.length_cons] at hfuel
        omega
      obtain ⟨ihcomp, ihord⟩ := ih ((adjOf g t).foldl stepNeighbor (rest, d)).1
        ((adjOf g t).foldl stepNeighbor (rest, d)).2 (P ++ [t]) hfuel'
        (by rw [hkeys1, hkeys]) hnodup' hq1K hcount' hzero' hdeg0' hord'
      rw [hkl]
      have hre : P ++ t :: kahnLoop g fuel ((adjOf g t).foldl stepNeighbor (rest, d)).1
          ((adjOf g t).foldl stepNeighbor (rest, d)).2
        = (P ++ [t]) ++ kahnLoop g fuel ((adjOf g t).foldl stepNeighbor (rest, d)).1
          ((adjOf g t).foldl stepNeighbor (rest, d)).2 := by simp
      constructor
      · intro u huK
        rw [hre]
        exact ihcomp u huK
      · intro e heFP he2
        rw [hre] at he2 ⊢
        exact ihord e heFP he2

theorem filteredPairs_cons (K : List String) (rel : TableRelationship)
    (rest : List TableRelationship) :
    filteredPairs K (rel :: rest)
      = (if rel.tableName ∈ K ∧ rel.referencedTable ∈ K
          then [(rel.referencedTable, rel.tableName)] else [])
        ++ filteredPairs K rest := by
  simp only [filteredPairs, List.filter_cons]
  by_cases h : rel.tableName ∈ K ∧ rel.referencedTable ∈ K
  · rw [if_pos (by simp [h.1, h.2]), if_pos h]
    simp
  · rw [if_neg (by simpa using h), if_neg h]
    simp

theorem filteredPairs_mem {tables : List String} {rels : List TableRelationship}
    {e : String × String} (he : e ∈ filteredPairs tables rels) :
    e.1 ∈ tables ∧ e.2 ∈ tables := by
  simp only [filteredPairs, List.mem_map, List.mem_filter, Bool.and_eq_true,
    decide_eq_true_eq] at he
  obtain ⟨rel, ⟨-, h1, h2⟩, rfl⟩ := he
  exact ⟨h2, h1⟩

theorem mem_filteredPairs {tables : List String} {rels : List TableRelationship}
    {rel : TableRelationship} (hrel : rel ∈ rels) (h1 : rel.tableName ∈ tables)
    (h2 : rel.referencedTable ∈ tables) :
    (rel.referencedTable, rel.tableName) ∈ filteredPairs tables rels := by
  simp only [filteredPairs, List.mem_map]
  exact ⟨rel, List.mem_filter.mpr ⟨hrel, by simp [h1, h2]⟩, rfl⟩

theorem inCount_nil (u : String) (P : List String) : inCount [] u P = 0 := rfl

theorem foldl_addRelationship_graph (rels : List TableRelationship) (K : List String) :
    ∀ (g : AdjMap) (d : DegMap), keysOf g = K → keysOf d = K →
    (∀ r t, t ∈ adjOf (rels.foldl addRelationship (g, d)).1 r
        ↔ (t ∈ adjOf g r ∨ (r, t) ∈ filteredPairs K rels)) ∧
    (∀ u, degOf (rels.foldl addRelationship (g, d)).2 u
        = degOf d u + inCount (filteredPairs K rels) u []) := by
  induction rels with
  | nil =>
    intro g d hkg hkd
    constructor
    · intro r t
      simp [filteredPairs]
    · intro u
      simp [filteredPairs, inCount]
  | cons rel rest ih =>
    intro g d hkg hkd
    rw [List.foldl_cons]
    have hguard : ((mapGet g rel.tableName).isSome
          ∧ (mapGet g rel.referencedTable).isSome)
        ↔ (rel.tableName ∈ K ∧ rel.referencedTable ∈ K) := by
      rw [← hkg, ← mapGet_isSome_iff, ← mapGet_isSome_iff]
    by_cases hg : rel.tableName ∈ K ∧ rel.referencedTable ∈ K
    · have hstep : addRelationship (g, d) rel
          = (mapSet g rel.referencedTable
              (setAdd (adjOf g rel.referencedTable) rel.tableName),
             mapSet d rel.tableName (degOf d rel.tableName + 1)) := by
        unfold addRelationship
        rw [if_pos (hguard.mpr hg)]
      have hkg' : keysOf (mapSet g rel.referencedTable
          (setAdd (adjOf g rel.referencedTable) rel.tableName)) = K := by
        rw [keysOf_mapSet, if_pos (by rw [hkg]; exact hg.2), hkg]
      have hkd' : keysOf (mapSet d rel.tableName (degOf d rel.tableName + 1)) = K := by
        rw [keysOf_mapSet, if_pos (by rw [hkd]; exact hg.1), hkd]
      obtain ⟨iha, ihd⟩ := ih _ _ hkg' hkd'
      rw [hstep]
      constructor
      · intro r t
        rw [iha r t, filteredPairs_cons, if_pos hg, adjOf_mapSet]
        constructor
        · rintro (h | h)
          · split at h
            · next hr =>
              rcases (mem_setAdd _ _ _).mp h with h | rfl
              · refine Or.inl ?_
                rw [hr]
                exact h
              · exact Or.inr (List.mem_append.mpr (Or.inl
                  (List.mem_singleton.mpr (by rw [hr]))))
            · exact Or.inl h
          · exact Or.inr (List.mem_append.mpr (Or.inr h))
        · rintro (h | h)
          · left
            split
            · next hr =>
              subst hr
              exact (mem_setAdd _ _ _).mpr (Or.inl h)
            · exact h
          · rcases List.mem_append.mp h with h | h
            · rw [List.mem_singleton] at h
              have h1 : r = rel.referencedTable := congrArg Prod.fst h
              have h2 : t = rel.tableName := congrArg Prod.snd h
              left
              rw [if_pos h1]
              exact (mem_setAdd _ _ _).mpr (Or.inr h2)
            · exact Or.inr h
      · intro u
        rw [ihd u, degOf_mapSet, filteredPairs_cons, if_pos hg, inCount_append,
          inCount_cons, inCount_nil]
        by_cases hu : u = rel.tableName
        · have hc : ((rel.referencedTable, rel.tableName) : String × String).2 = u
              ∧ ((rel.referencedTable, rel.tableName) : String × String).1
                  ∉ ([] : List String) := ⟨by rw [hu], by simp⟩
          rw [if_pos hu, if_pos hc, hu]
          omega
        · have hc : ¬(((rel.referencedTable, rel.tableName) : String × String).2 = u
              ∧ ((rel.referencedTable, rel.tableName) : String × String).1
                  ∉ ([] : List String)) := by
            rintro ⟨h1, -⟩
            exact hu h1.symm
          rw [if_neg hu, if_neg hc]
          omega
    · have hstep : addRelationship (g, d) rel = (g, d) := by
        unfold addRelationship
        rw [if_neg (fun hc => hg (hguard.mp hc))]
      rw [hstep]
      obtain ⟨iha, ihd⟩ := ih g d hkg hkd
      constructor
      · intro r t
        rw [iha r t, filteredPairs_cons, if_neg hg]
        simp
      · intro u
        rw [ihd u, filteredPairs_cons, if_neg hg]
        simp

theorem buildState_graph (tables : List String) (rels : List TableRelationship)
    (hnd : tables.Nodup) :
    (∀ r t, t ∈ adjOf (buildState tables rels).1 r
        ↔ (r, t) ∈ filteredPairs tables rels) ∧
    (∀ u, degOf (buildState tables rels).2 u
        = inCount (filteredPairs tables rels) u []) := by
  unfold buildState
  obtain ⟨hk1, hk2⟩ := initTables_keys tables hnd
  have hpair : initTables tables = ((initTables tables).1, (initTables tables).2) := rfl
  rw [hpair]
  obtain ⟨ha, hd⟩ := foldl_addRelationship_graph rels tables _ _ hk1 hk2
  constructor
  · intro r t
    rw [ha r t, initTables_adj]
    simp
  · intro u
    rw [hd u, initTables_deg]
    simp

theorem initialQueue_mem_of_deg {d : DegMap} (hnd : (keysOf d).Nodup) {u : String}
    (hu : u ∈ keysOf d) (h0 : degOf d u = 0) : u ∈ initialQueue d := by
  rw [initialQueue_eq]
  simp only [keysOf, List.mem_map] at hu
  obtain ⟨p, hp, rfl⟩ := hu
  have hget : mapGet d p.1 = some p.2 :=
    mapGet_of_mem_nodup (Prod.mk.eta ▸ hp) hnd
  have hv : p.2 = 0 := by
    rw [degOf, hget] at h0
    simpa using h0
  simp only [List.mem_map, List.mem_filter]
  exact ⟨p, ⟨hp, by simp [hv]⟩, rfl⟩

/-- C2 (amended): under the claim's own hypotheses — distinct table names and
an acyclic filtered graph — plus the extra hypothesis that no
`(referencedTable, tableName)` pair occurs twice among the filtered edges, the
result places each referenced table strictly before its referencing table.
The extra hypothesis is necessary: a duplicated relationship increments the
in-degree twice but the neighbour walk decrements it only once, so the
referencing table never reaches zero and falls into the unsorted remainder
(see the counterexample). -/
theorem getInsertionOrder_topological (tables : List String)
    (rels : List TableRelationship)
    (hnd : tables.Nodup)
    (hFPnd : (filteredPairs tables rels).Nodup)
    (hwf : WellFounded (fun a b : String => (a, b) ∈ filteredPairs tables rels)) :
    ∀ rel ∈ rels, rel.tableName ∈ tables → rel.referencedTable ∈ tables →
      ∃ l₁ l₂, getInsertionOrder tables rels
          = l₁ ++ rel.tableName :: l₂ ∧ rel.referencedTable ∈ l₁ := by
  intro rel hrel h1 h2
  obtain ⟨hkg, hkd, hadjnd, -⟩ := buildState_inv tables rels hnd
  obtain ⟨hadj, hcount⟩ := buildState_graph tables rels hnd
  have hkdnd : (keysOf (buildState tables rels).2).Nodup := by
    rw [hkd]
    exact hnd
  have hFPK : ∀ e ∈ filteredPairs tables rels, e.1 ∈ tables ∧ e.2 ∈ tables :=
    fun e he => filteredPairs_mem he
  have hqnd : (initialQueue (buildState tables rels).2).Nodup :=
    initialQueue_nodup hkdnd
  have hqK : ∀ u ∈ initialQueue (buildState tables rels).2, u ∈ tables := by
    intro u hu
    have := (initialQueue_mem hu).1
    rwa [hkd] at this
  have hqdeg : ∀ u ∈ ([] : List String) ++ initialQueue (buildState tables rels).2,
      degOf (buildState tables rels).2 u = 0 := by
    intro u hu
    rw [List.nil_append] at hu
    exact initialQueue_deg hkdnd hu
  have hzero : ∀ u ∈ tables, degOf (buildState tables rels).2 u = 0 →
      u ∈ ([] : List String) ∨ u ∈ initialQueue (buildState tables rels).2 := by
    intro u hu h0
    exact Or.inr (initialQueue_mem_of_deg hkdnd (by rw [hkd]; exact hu) h0)
  obtain ⟨hcomp, hords⟩ := kahnLoop_topo (buildState tables rels).1 tables
    (filteredPairs tables rels) hadjnd hadj hFPK hFPnd hwf
    ((initialQueue (buildState tables rels).2).length
      + degSum (buildState tables rels).2)
    (initialQueue (buildState tables rels).2)
    (buildState tables rels).2 []
    (le_refl _) hkd (by rw [List.nil_append]; exact hqnd) hqK hcount hzero hqdeg
    (by intro e _ he2; simp at he2)
  rw [List.nil_append] at hcomp
  have hfil : tables.filter (fun t => decide (t ∉ kahnLoop (buildState tables rels).1
      ((initialQueue (buildState tables rels).2).length
        + degSum (buildState tables rels).2)
      (initialQueue (buildState tables rels).2) (buildState tables rels).2)) = [] := by
    rw [List.filter_eq_nil]
    intro t ht
    simp only [decide_eq_true_eq, not_not]
    exact hcomp t ht
  have hfinal : getInsertionOrder tables rels
      = kahnLoop (buildState tables rels).1
          ((initialQueue (buildState tables rels).2).length
            + degSum (buildState tables rels).2)
          (initialQueue (buildState tables rels).2) (buildState tables rels).2 := by
    simp only [getInsertionOrder]
    split
    · rw [hfil, List.append_nil]
    · rfl
  have he : (rel.referencedTable, rel.tableName) ∈ filteredPairs tables rels :=
    mem_filteredPairs hrel h1 h2
  obtain ⟨l₁, l₂, hsplit, hmem⟩ := hords (rel.referencedTable, rel.tableName) he
    (by rw [List.nil_append]; exact hcomp rel.tableName h1)
  rw [List.nil_append] at hsplit
  exact ⟨l₁, l₂, by rw [hfinal]; exact hsplit, hmem⟩

theorem getInsertionOrder_topological_witness :
    ∃ l₁ l₂, getInsertionOrder ["posts", "users"]
        [⟨"posts", "users", "author_id", "id"⟩]
      = l₁ ++ "posts" :: l₂ ∧ "users" ∈ l₁ := by
  have hFP : filteredPairs ["posts", "users"] [⟨"posts", "users", "author_id", "id"⟩]
      = [("users", "posts")] := by decide
  have hwf : WellFounded (fun a b : String =>
      (a, b) ∈ filteredPairs ["posts", "users"] [⟨"posts", "users", "author_id", "id"⟩]) := by
    have haccu : Acc (fun a b : String =>
        (a, b) ∈ filteredPairs ["posts", "users"]
          [⟨"posts", "users", "author_id", "id"⟩]) "users" := by
      refine Acc.intro _ (fun z hz => ?_)
      rw [hFP, List.mem_singleton] at hz
      exact absurd (show ("users" : String) = "posts" from congrArg Prod.snd hz)
        (by decide)
    refine ⟨fun a => Acc.intro a (fun y hy => ?_)⟩
    rw [hFP, List.mem_singleton] at hy
    rw [show y = "users" from congrArg Prod.fst hy]
    exact haccu
  exact getInsertionOrder_topological ["posts", "users"]
    [⟨"posts", "users", "author_id", "id"⟩] (by decide) (by rw [hFP]; decide) hwf
    ⟨"posts", "users", "author_id", "id"⟩ (List.mem_singleton.mpr rfl)
    (by decide) (by decide)

/-- C2 counterexample: the original claim fails without a no-duplicate-edge
hypothesis.  Tables `c, a, b` are distinct and the filtered graph of
`a→b (twice), c→a` is acyclic (it embeds in the measure b=0 < a=1 < c=2), yet
the result `b, c, a` places `a` after its dependent `c`: the duplicated
`(b, a)` edge gives `a` in-degree 2 while the single adjacency-set entry
decrements it only once, so `a` never reaches zero and is appended as
unsorted remainder after `c`. -/
theorem getInsertionOrder_topological_counterexample :
    (["c", "a", "b"] : List String).Nodup ∧
    WellFounded (fun x y : String =>
      (x, y) ∈ filteredPairs ["c", "a", "b"]
        [⟨"a", "b", "x", "id"⟩, ⟨"a", "b", "y", "id"⟩, ⟨"c", "a", "z", "id"⟩]) ∧
    getInsertionOrder ["c", "a", "b"]
        [⟨"a", "b", "x", "id"⟩, ⟨"a", "b", "y", "id"⟩, ⟨"c", "a", "z", "id"⟩]
      = ["b", "c", "a"] ∧
    ¬ ∃ l₁ l₂, (["b", "c", "a"] : List String) = l₁ ++ "c" :: l₂ ∧ "a" ∈ l₁ := by
  refine ⟨by decide, ?_, by decide, ?_⟩
  · have hFP : filteredPairs ["c", "a", "b"]
        [⟨"a", "b", "x", "id"⟩, ⟨"a", "b", "y", "id"⟩, ⟨"c", "a", "z", "id"⟩]
        = [("b", "a"), ("b", "a"), ("a", "c")] := by decide
    have haccb : Acc (fun x y : String =>
        (x, y) ∈ filteredPairs ["c", "a", "b"]
          [⟨"a", "b", "x", "id"⟩, ⟨"a", "b", "y", "id"⟩, ⟨"c", "a", "z", "id"⟩]) "b" := by
      refine Acc.intro _ (fun z hz => ?_)
      rw [hFP] at hz
      simp only [List.mem_cons, List.not_mem_nil, or_false] at hz
      rcases hz with h | h | h
      · exact absurd (show ("b" : String) = "a" from congrArg Prod.snd h) (by decide)
      · exact absurd (show ("b" : String) = "a" from congrArg Prod.snd h) (by decide)
      · exact absurd (show ("b" : String) = "c" from congrArg Prod.snd h) (by decide)
    have hacca : Acc (fun x y : String =>
        (x, y) ∈ filteredPairs ["c", "a", "b"]
          [⟨"a", "b", "x", "id"⟩, ⟨"a", "b", "y", "id"⟩, ⟨"c", "a", "z", "id"⟩]) "a" := by
      refine Acc.intro _ (fun z hz => ?_)
      rw [hFP] at hz
      simp only [List.mem_cons, List.not_mem_nil, or_false] at hz
      rcases hz with h | h | h
      · rw [show z = "b" from congrArg Prod.fst h]
        exact haccb
      · rw [show z = "b" from congrArg Prod.fst h]
        exact haccb
      · exact absurd (show ("a" : String) = "c" from congrArg Prod.snd h) (by decide)
    refine ⟨fun a => Acc.intro a (fun y hy => ?_)⟩
    rw [hFP] at hy
    simp only [List.mem_cons, List.not_mem_nil, or_false] at hy
    rcases hy with h | h | h
    · rw [show y = "b" from congrArg Prod.fst h]
      exact haccb
    · rw [show y = "b" from congrArg Prod.fst h]
      exact haccb
    · rw [show y = "a" from congrArg Prod.fst h]
      exact hacca
  · rintro ⟨l₁, l₂, heq, hmem⟩
    rcases l₁ with _ | ⟨a1, _ | ⟨a2, _ | ⟨a3, l⟩⟩⟩ <;>
      simp only [List.cons_append, List.nil_append] at heq
    · injection heq with h1 h2
      exact absurd h1 (by decide)
    · rw [List.mem_singleton] at hmem
      injection heq with h1 h2
      exact absurd (hmem.trans h1.symm) (by decide)
    · injection heq with h1 h2
      injection h2 with h3 h4
      injection h4 with h5 h6
      exact absurd h5 (by decide)
    · injection heq with h1 h2
      injection h2 with h3 h4
      injection h4 with h5 h6
      have := List.append_eq_nil.mp h6.symm
      simp at this

theorem scanAll_idx_mono (pats : List (List Tok)) (s : List Char) :
    ∀ (fuel : Nat) (i : Nat),
      (scanAll pats s i fuel).Pairwise (fun m1 m2 => m1.idx < m2.idx) ∧
      (∀ m ∈ scanAll pats s i fuel, i ≤ m.idx) := by
  intro fuel
  induction fuel with
  | zero => intro i; simp [scanAll]
  | succ fuel ih =>
    intro i
    rw [scanAll]
    split
    · next hi =>
      cases hm : matchAltAt pats (s.drop i) with
      | some r =>
        obtain ⟨caps, len⟩ := r
        obtain ⟨ihp, ihge⟩ := ih (i + max len 1)
        constructor
        · refine List.Pairwise.cons ?_ ihp
          intro m hm2
          have := ihge m hm2
          simp only []
          omega
        · intro m hm2
          rcases List.mem_cons.mp hm2 with rfl | hm3
          · exact le_refl _
          · have := ihge m hm3
            omega
      | none =>
        obtain ⟨ihp, ihge⟩ := ih (i + 1)
        exact ⟨ihp, fun m hm2 => by have := ihge m hm2; omega⟩
    · simp

/-- C5 counterexample: a script whose inline `REFERENCES` constraint (owning
table `a`, text offset 23 after cleaning) precedes its `FOREIGN KEY`
constraint (owning table `b`, text offset 70), yet `parseRelationships`
returns the `FOREIGN KEY` relationship first: the list is ordered by pass
(all `FOREIGN KEY` matches, then all inline matches), not by position in the
source text. -/
theorem parseRelationships_order_counterexample :
    parseRelationships "CREATE TABLE a (x INT, y INT REFERENCES t(u)); CREATE TABLE b (z INT, FOREIGN KEY (z) REFERENCES w(v));"
      = [⟨"b", "w", "z", "v"⟩, ⟨"a", "t", "y", "u"⟩] ∧
    (scanMatches [inlinePattern] (cleanDDL ("CREATE TABLE a (x INT, y INT REFERENCES t(u)); CREATE TABLE b (z INT, FOREIGN KEY (z) REFERENCES w(v));").data)).map
      RegexMatch.idx = [23] ∧
    (scanMatches [fkPattern] (cleanDDL ("CREATE TABLE a (x INT, y INT REFERENCES t(u)); CREATE TABLE b (z INT, FOREIGN KEY (z) REFERENCES w(v));").data)).map
      RegexMatch.idx = [70] ∧
    decide ((23 : Nat) < 70) = true ∧
    decide (([⟨"b", "w", "z", "v"⟩, ⟨"a", "t", "y", "u"⟩] : List TableRelationship)
      = [⟨"a", "t", "y", "u"⟩, ⟨"b", "w", "z", "v"⟩]) = false :=
  ⟨by decide, by decide, by decide, by decide, by decide⟩

/-- C5 (amended): `parseRelationships` runs two passes over the cleaned
script and concatenates them — every `FOREIGN KEY` relationship first, then
every inline `REFERENCES` relationship — and each pass does list its matches
in strictly increasing text position (duplicate 4-tuples are kept, as
`filterMap` never deduplicates).  Source-text order therefore holds within a
pass but not across the two constraint forms. -/
theorem parseRelationships_two_passes (ddl : String) :
    parseRelationships ddl
      = (scanMatches [fkPattern] (cleanDDL ddl.data)).filterMap
          (fkRelFromMatch (cleanDDL ddl.data))
        ++ (scanMatches [inlinePattern] (cleanDDL ddl.data)).filterMap
          (inlineRelFromMatch (cleanDDL ddl.data)) ∧
    (scanMatches [fkPattern] (cleanDDL ddl.data)).Pairwise
      (fun m1 m2 => m1.idx < m2.idx) ∧
    (scanMatches [inlinePattern] (cleanDDL ddl.data)).Pairwise
      (fun m1 m2 => m1.idx < m2.idx) := by
  refine ⟨rfl, ?_, ?_⟩
  · exact (scanAll_idx_mono [fkPattern] (cleanDDL ddl.data) _ 0).1
  · exact (scanAll_idx_mono [inlinePattern] (cleanDDL ddl.data) _ 0).1
